import Mathlib

/-!
Verification development for the XLA `HostOffloader` compiler pass
(`xla/service/host_offloader.h`).  The repository fragment ships only the
header of the pass (declarations of `Run`, `WalkDownHostMemoryOffloadPaths`,
`InsertCopyBetween`, `IsValidDuringPureMemoryOffload`, the bookkeeping sets,
and the `InstructionAndShapeIndex` key type); the function bodies live in the
missing `host_offloader.cc`.  Following the specification document, the pass
is modelled here as an executable shallow embedding: an HLO computation is a
list of nodes in topological order, the walk is a fueled recursion over
consumer edges, and mutation is a staged pipeline (tagging, copy insertion,
dynamic-update-slice rewriting, marker stripping, scheduling fix).
-/

namespace HostOffload

/-- Opcode classification of a graph node, as consumed by the pass's
allow-list predicates.  `customCall` carries the custom-call target name used
to recognise the `MoveToHost` / `MoveToDevice` annotation markers. -/
inductive OpKind where
  | parameter
  | constant
  | copy
  | bitcast
  | reshape
  | tuple
  | getTupleElement
  | slice
  | dynamicSlice
  | dynamicUpdateSlice
  | broadcast
  | concatenate
  | optimizationBarrier
  | whileOp
  | conditional
  | allocateBuffer
  | customCall (target : String)
  | add
  | multiply
  | negate
  | dot
  | convolution
deriving DecidableEq, Repr

/-- A graph node ("instruction"): stable identity, opcode, operand edges
(ids of producer nodes), result shape (dimensions of the array result; the
model uses flat, single-leaf shapes), and the memory-space tag of the result
leaf (`0` is device memory; the host color is a pass parameter). -/
structure Node where
  id : Nat
  op : OpKind
  operands : List Nat
  shape : List Nat
  memSpace : Int
deriving DecidableEq, Repr

/-- A module: one entry computation given as a list of nodes.  Well-formed
modules list nodes in topological order (operands appear earlier). -/
structure HloModule where
  nodes : List Node
deriving DecidableEq, Repr

/-- `InstructionAndShapeIndex` from the header: an instruction identity
paired with a shape index (path to one leaf of the result shape).
Instruction pointers are modelled by stable node ids. -/
structure InstructionAndShapeIndex where
  instruction : Nat
  shape_index : List Nat
deriving DecidableEq, Repr

/-- Modelled from the spec: the body of
`operator==(const InstructionAndShapeIndex&, const InstructionAndShapeIndex&)`
is in the missing `host_offloader.cc`; the spec states "equality is
node-identity plus shape-index equality". -/
def iasiEq (a b : InstructionAndShapeIndex) : Bool :=
  a.instruction == b.instruction && a.shape_index == b.shape_index

/-- Hash combinator standing for one `H::combine` step of an absl hash
state. -/
def hashCombine (h x : Nat) : Nat :=
  h * 1000003 + x

/-- Encoding of a shape index into the hash domain. -/
def hashShapeIndex (idx : List Nat) : Nat :=
  idx.foldl (fun h d => hashCombine h (d + 1)) 7

/-- `InstructionAndShapeIndex::Hash` as written in the header: combine the
instruction identity into the state, then the shape index. -/
def InstructionAndShapeIndex.Hash (h : Nat) (i : InstructionAndShapeIndex) : Nat :=
  hashCombine (hashCombine h i.instruction) (hashShapeIndex i.shape_index)

/-- `AbslHashValue` forwards to `InstructionAndShapeIndex::Hash`, as in the
header. -/
def AbslHashValue (h : Nat) (i : InstructionAndShapeIndex) : Nat :=
  InstructionAndShapeIndex.Hash h i

/-- Membership in a modelled `absl::flat_hash_set<InstructionAndShapeIndex>`,
using the pass's equality. -/
def iasiMem (p : InstructionAndShapeIndex) (s : List InstructionAndShapeIndex) : Bool :=
  s.any (fun q => iasiEq q p)

/-- The `MoveToHost` annotation marker target name. -/
def kMoveToHostTarget : String := "MoveToHost"

/-- The `MoveToDevice` annotation marker target name. -/
def kMoveToDeviceTarget : String := "MoveToDevice"

/-- Is this node a "move to host" marker custom call? -/
def isMoveToHost (n : Node) : Bool :=
  n.op == OpKind.customCall kMoveToHostTarget

/-- Is this node a "move to device" marker custom call? -/
def isMoveToDevice (n : Node) : Bool :=
  n.op == OpKind.customCall kMoveToDeviceTarget

/-- Is this node either annotation marker? -/
def isMarker (n : Node) : Bool :=
  isMoveToHost n || isMoveToDevice n

/-- Modelled from the spec: the body of
`HostOffloader::IsValidDuringPureMemoryOffload` is in the missing
`host_offloader.cc`; the spec's allow-list of operations permitted on a
pure-data-movement offload path is "copy, bitcast, reshape, tuple
construction/destruction, get-tuple-element, slice, concat, broadcast of a
host-resident value, parameter passthrough, while/conditional passthrough"
(plus the pass's own buffer allocations and the slice-update it rewrites);
anything else is a validation failure. -/
def isValidOp (op : OpKind) : Bool :=
  match op with
  | OpKind.copy => true
  | OpKind.bitcast => true
  | OpKind.reshape => true
  | OpKind.tuple => true
  | OpKind.getTupleElement => true
  | OpKind.slice => true
  | OpKind.dynamicSlice => true
  | OpKind.dynamicUpdateSlice => true
  | OpKind.concatenate => true
  | OpKind.broadcast => true
  | OpKind.parameter => true
  | OpKind.whileOp => true
  | OpKind.conditional => true
  | OpKind.optimizationBarrier => true
  | OpKind.allocateBuffer => true
  | _ => false

/-- The allow-list applied to a node's opcode. -/
def isValidDuringPureMemoryOffload (n : Node) : Bool :=
  isValidOp n.op

/-- Look a node up by id. -/
def HloModule.find? (m : HloModule) (i : Nat) : Option Node :=
  m.nodes.find? (fun n => n.id == i)

/-- The consumers of node `i`: all nodes having `i` among their operands. -/
def consumersOf (m : HloModule) (i : Nat) : List Node :=
  m.nodes.filter (fun n => n.operands.contains i)

/-- Well-formedness scan: each node's operands refer to nodes already seen,
and ids are fresh (hence distinct). -/
def wfAux : List Nat → List Node → Bool
  | _, [] => true
  | seen, n :: rest =>
      n.operands.all (fun o => seen.contains o) &&
      !(seen.contains n.id) &&
      wfAux (n.id :: seen) rest

/-- A module is well-formed when its node list is in topological order with
distinct ids. -/
def HloModule.wf (m : HloModule) : Bool :=
  wfAux [] m.nodes

/- ### Scheduling fixer (`ApplySchedulingFix`)

Modelled from the spec: the body of `HostOffloader::ApplySchedulingFix` is in
the missing `host_offloader.cc`; the spec describes it as a post-mutation
step that "recomputes/repairs ordering constraints so the mutated graph
remains schedulable", an idempotent fix-up.  It is modelled as a stable
topological reordering of the node list: repeatedly emit the first node all
of whose in-module operands have already been emitted. -/

/-- A node may be scheduled once every operand that belongs to the module
(`univ`) has been emitted. -/
def pickable (univ emitted : List Nat) (n : Node) : Bool :=
  n.operands.all (fun o => emitted.contains o || !(univ.contains o))

/-- Remove the first schedulable node from the list, keeping the rest in
order. -/
def pickFirst (univ emitted : List Nat) : List Node → Option (Node × List Node)
  | [] => none
  | n :: rest =>
      if pickable univ emitted n then some (n, rest)
      else
        match pickFirst univ emitted rest with
        | none => none
        | some (p, rest') => some (p, n :: rest')

/-- The scheduling loop: repeatedly emit the first schedulable node; if no
node is schedulable (a cycle), append the remainder as-is.  The fuel is the
number of nodes still to place. -/
def topoLoop (univ : List Nat) : Nat → List Nat → List Node → List Node
  | 0, _, rem => rem
  | fuel + 1, emitted, rem =>
      match pickFirst univ emitted rem with
      | none => rem
      | some (n, rest) => n :: topoLoop univ fuel (n.id :: emitted) rest

/-- `ApplySchedulingFix`, modelled from the spec as a stable topological
reordering of the module's node list. -/
def applySchedulingFix (m : HloModule) : HloModule :=
  { nodes := topoLoop (m.nodes.map (fun n => n.id)) m.nodes.length [] m.nodes }

/-- A node list is in replayable order when each successive head is
schedulable given what precedes it, until (possibly) a point where nothing
at all is schedulable. -/
def replayable (univ : List Nat) : List Nat → List Node → Bool
  | _, [] => true
  | emitted, w :: ws =>
      if pickable univ emitted w then replayable univ (w.id :: emitted) ws
      else (pickFirst univ emitted (w :: ws)).isNone

/-- Parameterized slice-update scenario: the update operand (parameter 0,
shape `sh1`) passes through a `MoveToHost` marker into the update operand of
a `DynamicUpdateSlice` over a device buffer (parameter 2, shape `sh2`), and
the updated buffer flows to a `MoveToDevice` marker. -/
def mkDusModule (sh1 sh2 : List Nat) : HloModule :=
  ⟨[⟨0, OpKind.parameter, [], sh1, 0⟩,
    ⟨1, OpKind.customCall "MoveToHost", [0], sh1, 0⟩,
    ⟨2, OpKind.parameter, [], sh2, 0⟩,
    ⟨3, OpKind.constant, [], [], 0⟩,
    ⟨4, OpKind.dynamicUpdateSlice, [2, 1, 3], sh2, 0⟩,
    ⟨5, OpKind.customCall "MoveToDevice", [4], sh2, 0⟩]⟩

/-- The module the pass produces from `mkDusModule`: markers removed, the
slice-update rewritten to write into a host `AllocateBuffer` sized to its
full shape, and a single copy back to device memory at the re-entry
boundary. -/
def mkDusResult (c : Int) (sh1 sh2 : List Nat) : HloModule :=
  ⟨[⟨0, OpKind.parameter, [], sh1, 0⟩,
    ⟨2, OpKind.parameter, [], sh2, 0⟩,
    ⟨3, OpKind.constant, [], [], 0⟩,
    ⟨7, OpKind.allocateBuffer, [], sh2, c⟩,
    ⟨4, OpKind.dynamicUpdateSlice, [7, 0, 3], sh2, c⟩,
    ⟨6, OpKind.copy, [4], sh2, 0⟩]⟩

/-- A straight chain of single-operand nodes with the given opcodes,
starting at id `i`, each consuming its predecessor, with memory space
`ms`. -/
def chainNodesMS (ms : Int) : Nat → List OpKind → List Node
  | _, [] => []
  | i, op :: rest => ⟨i, op, [i - 1], [], ms⟩ :: chainNodesMS ms (i + 1) rest

/-- A graph consisting of one `MoveToHost` marker followed only by the given
chain of nodes up to a `MoveToDevice` marker: parameter (id 0) →
`MoveToHost` (id 1) → chain (ids 2 .. ops.length + 1) → `MoveToDevice`
(id ops.length + 2). -/
def mkChainModule (ops : List OpKind) : HloModule :=
  ⟨⟨0, OpKind.parameter, [], [], 0⟩ ::
   ⟨1, OpKind.customCall "MoveToHost", [0], [], 0⟩ ::
   (chainNodesMS 0 2 ops ++
     [⟨2 + ops.length, OpKind.customCall "MoveToDevice", [1 + ops.length], [], 0⟩])⟩

/- ### The walk phase (`WalkDownHostMemoryOffloadPaths`) -/

/-- Failures reported by the pass: a user validation error (compute found on
an offload path, identifying the offending node), or internal
inconsistencies that cannot arise on well-formed modules. -/
inductive PassError where
  | computeOnOffloadPath (nodeId : Nat)
  | missingNode (nodeId : Nat)
  | outOfFuel
deriving DecidableEq, Repr

/-- A request to insert a copy node between a producer (`before`) and a
consumer boundary (`after`, keyed as a node-and-shape-index pair), emitting
into memory space `space`. -/
structure CopyRequest where
  before : Nat
  after : InstructionAndShapeIndex
  space : Int
deriving DecidableEq, Repr

/-- Mutation requests collected while walking: node ids whose result leaf is
to be tagged host memory, copy insertions at boundaries, and slice-updates to
be rewritten to write into a host buffer. -/
structure WalkState where
  toTagHost : List Nat
  copyRequests : List CopyRequest
  dusToRewrite : List Nat
deriving DecidableEq, Repr

/-- The initial, empty request set. -/
def WalkState.empty : WalkState := ⟨[], [], []⟩

/-- Record a host-memory tag request. -/
def addTag (st : WalkState) (i : Nat) : WalkState :=
  { st with toTagHost := i :: st.toTagHost }

/-- Record a copy-insertion request. -/
def addCopyRequest (st : WalkState) (r : CopyRequest) : WalkState :=
  { st with copyRequests := r :: st.copyRequests }

/-- Record a slice-update rewrite request. -/
def addDus (st : WalkState) (i : Nat) : WalkState :=
  { st with dusToRewrite := i :: st.dusToRewrite }

/-- Is `n` a slice-update that receives the offloaded value through its
update operand (operand index 1), triggering the special rewrite? -/
def isDusSpecial (prev : Nat) (n : Node) : Bool :=
  n.op == OpKind.dynamicUpdateSlice && n.operands.get? 1 == some prev

/-- The walk continues through a node reached via `prev` when the node is not
a device boundary and is either the special slice-update case or on the
pure-memory-offload allow-list. -/
def walkContinues (prev : Nat) (n : Node) : Bool :=
  !(isMoveToDevice n) && (isDusSpecial prev n || isValidDuringPureMemoryOffload n)

/-- An offending node reached via `prev`: neither a device boundary nor the
slice-update special case nor on the allow-list — compute on an offload
path. -/
def isOffending (prev : Nat) (n : Node) : Bool :=
  !(isMoveToDevice n) && !(isDusSpecial prev n) && !(isValidDuringPureMemoryOffload n)

/-- Declarative reachability: starting at `cur` (reached through producer
`prev`), a forward path along consumer edges reaches the offending node
`bad` before any `MoveToDevice` marker. -/
inductive ReachesBad (m : HloModule) : Nat → Nat → Nat → Prop where
  | here : ∀ (prev cur : Nat) (n : Node), m.find? cur = some n →
      isOffending prev n = true → ReachesBad m prev cur cur
  | step : ∀ (prev cur : Nat) (n u : Node) (bad : Nat), m.find? cur = some n →
      walkContinues prev n = true → u ∈ consumersOf m cur →
      ReachesBad m cur u.id bad → ReachesBad m prev cur bad

mutual

/-- Modelled from the spec: the body of
`HostOffloader::WalkDownHostMemoryOffloadPaths` is in the missing
`host_offloader.cc`.  Per the spec's path-walker contract, for the current
node: (1) a "move to device" marker terminates the path and requests a copy
back to device memory at that boundary; (2) a slice-update whose updated
value arrives through its update operand is rewritten to target host memory
and the walk continues; (3) any other node must pass the pure-memory-offload
allow-list — it is tagged host memory and the walk recurses into every
consumer edge — and a node failing the allow-list is a validation failure
identifying that node.  Fuel bounds the recursion; it never runs out on
well-formed modules. -/
def walkFrom (m : HloModule) (fuel : Nat) (prev cur : Nat) (st : WalkState) :
    Except PassError WalkState :=
  match fuel with
  | 0 => .error PassError.outOfFuel
  | fuel' + 1 =>
      match m.find? cur with
      | none => .error (PassError.missingNode cur)
      | some n =>
          if isMoveToDevice n then
            .ok (addCopyRequest st ⟨prev, ⟨cur, []⟩, 0⟩)
          else if isDusSpecial prev n then
            walkList m fuel' cur (consumersOf m cur) (addDus (addTag st cur) cur)
          else if isValidDuringPureMemoryOffload n then
            walkList m fuel' cur (consumersOf m cur) (addTag st cur)
          else .error (PassError.computeOnOffloadPath cur)

/-- Walk each node of a consumer list in turn, threading the request state;
`prev` is the producer through which these consumers receive the offloaded
value. -/
def walkList (m : HloModule) (fuel : Nat) (prev : Nat) (us : List Node) (st : WalkState) :
    Except PassError WalkState :=
  match us with
  | [] => .ok st
  | u :: us' =>
      match fuel with
      | 0 => .error PassError.outOfFuel
      | fuel' + 1 =>
          match walkFrom m fuel' prev u.id st with
          | .error e => .error e
          | .ok st' => walkList m fuel' prev us' st'

end

/- ### Entry-point scanning and top-level orchestration (`Run`) -/

/-- The "move to host" marker nodes of a module, in program order. -/
def moveToHostsOf (m : HloModule) : List Node :=
  m.nodes.filter isMoveToHost

/-- The entry parameters already typed with the host memory color ("input
streaming" starts). -/
def hostParamsOf (c : Int) (m : HloModule) : List Node :=
  m.nodes.filter (fun n => n.op == OpKind.parameter && n.memSpace == c)

/-- Fuel budget sufficient for every walk over a well-formed module. -/
def walkFuel (m : HloModule) : Nat :=
  (m.nodes.length + 2) * (m.nodes.length + 2)

/-- Some walk started at a `MoveToHost` marker reaches the offending node
`bad` before any `MoveToDevice` marker. -/
def MthStartReachesBad (m : HloModule) (bad : Nat) : Prop :=
  ∃ mc ∈ m.nodes, isMoveToHost mc = true ∧
    ∃ u ∈ consumersOf m mc.id, ReachesBad m mc.id u.id bad

/-- Some walk started at a `MoveToHost` marker or at a host-typed entry
parameter reaches the offending node `bad`. -/
def StartReachesBad (c : Int) (m : HloModule) (bad : Nat) : Prop :=
  MthStartReachesBad m bad ∨ ∃ p ∈ hostParamsOf c m, ReachesBad m p.id p.id bad

/-- The nodes strictly after the node with id `i` in the listing. -/
def tailAfter : List Node → Nat → List Node
  | [], _ => []
  | n :: rest, i => if n.id == i then rest else tailAfter rest i

/-- A walk result that is not an internal failure: anything but fuel
exhaustion and missing-node lookup. -/
def goodResult (r : Except PassError WalkState) : Prop :=
  match r with
  | Except.error PassError.outOfFuel => False
  | Except.error (PassError.missingNode _) => False
  | _ => True

/-- Modelled from the spec: the body of
`HostOffloader::HandleMoveToHostCustomCall` is in the missing
`host_offloader.cc`.  Walk down from every consumer of the marker
(`GetStartingInstructions`); if these paths found no paired slice-update, a
device-to-host copy is requested at the marker position, otherwise the
slice-update rewrite stands in for the copy. -/
def handleMoveToHost (c : Int) (m : HloModule) (mc : Node) (st : WalkState) :
    Except PassError WalkState :=
  match walkList m (walkFuel m) mc.id (consumersOf m mc.id) st with
  | .error e => .error e
  | .ok st' =>
      if st'.dusToRewrite.length == st.dusToRewrite.length then
        .ok (addCopyRequest st' ⟨mc.operands.headD 0, ⟨mc.id, []⟩, c⟩)
      else .ok st'

/-- Modelled from the spec: the body of `HostOffloader::HandleInputStreaming`
is in the missing `host_offloader.cc`.  Walk down from a host-typed entry
parameter; no initial copy is needed since the value already lives in host
memory. -/
def handleInputStreaming (m : HloModule) (p : Node) (st : WalkState) :
    Except PassError WalkState :=
  walkFrom m (walkFuel m) p.id p.id st

/-- Thread a fallible handler over a list of starting points. -/
def foldHandle {α : Type} (f : α → WalkState → Except PassError WalkState) :
    List α → WalkState → Except PassError WalkState
  | [], st => .ok st
  | x :: xs, st =>
      match f x st with
      | .error e => .error e
      | .ok st' => foldHandle f xs st'

/- ### The mutation phase -/

/-- Apply the collected host-memory tags: set the memory space of every
requested node's result leaf to the host color. -/
def applyTags (c : Int) (tags : List Nat) (m : HloModule) : HloModule :=
  { nodes := m.nodes.map (fun n =>
      if tags.contains n.id then { n with memSpace := c } else n) }

/-- The largest node id in use. -/
def maxIdOf (m : HloModule) : Nat :=
  m.nodes.foldl (fun a n => max a n.id) 0

/-- A fresh id for an inserted node. -/
def freshIdOf (m : HloModule) : Nat :=
  maxIdOf m + 1

/-- Rewire one operand edge of node `target`: every use of `oldOp` becomes a
use of `newOp`. -/
def rewireOperand (m : HloModule) (target oldOp newOp : Nat) : HloModule :=
  { nodes := m.nodes.map (fun n =>
      if n.id == target then
        { n with operands := n.operands.map (fun o => if o == oldOp then newOp else o) }
      else n) }

/-- Modelled from the spec: the body of `HostOffloader::InsertCopyBetween` is
in the missing `host_offloader.cc`.  Insert a new copy node that reads the
`before` producer and emits its value in the request's target memory space,
and rewire the `after` consumer's operand edge to the new copy. -/
def insertCopyBetween (m : HloModule) (r : CopyRequest) : HloModule :=
  match m.find? r.before with
  | none => m
  | some bn =>
      let nid := freshIdOf m
      let cpy : Node :=
        { id := nid, op := OpKind.copy, operands := [r.before], shape := bn.shape,
          memSpace := r.space }
      let m' := rewireOperand m r.after.instruction r.before nid
      { nodes := m'.nodes ++ [cpy] }

/-- Apply the copy-insertion requests in order, de-duplicating on the
`after` node-and-shape-index pair through the `already inserted` set
(`already_inserted_copy_before_`): a request whose pair is already recorded
is skipped.  Returns the mutated module, the performed insertions (keyed by
their `after` pair), and the final set. -/
def applyCopies : List CopyRequest → HloModule → List InstructionAndShapeIndex →
    HloModule × List (InstructionAndShapeIndex × Nat) × List InstructionAndShapeIndex
  | [], m, inserted => (m, [], inserted)
  | r :: rs, m, inserted =>
      if iasiMem r.after inserted then applyCopies rs m inserted
      else
        let m' := insertCopyBetween m r
        let rec2 := applyCopies rs m' (r.after :: inserted)
        (rec2.1, (r.after, freshIdOf m) :: rec2.2.1, rec2.2.2)

/-- Replace the head (the slice-update's destination-buffer operand) of an
operand list. -/
def replaceHead (l : List Nat) (x : Nat) : List Nat :=
  match l with
  | [] => []
  | _ :: t => x :: t

/-- Modelled from the spec: the body of
`HostOffloader::CreateAllocateBufferForDynamicUpdateSlice` is in the missing
`host_offloader.cc`.  Synthesize an explicit buffer-allocation node in host
memory sized to the slice-update's full shape and rewire the slice-update's
destination operand to target it. -/
def createAllocateBufferForDus (c : Int) (m : HloModule) (dusId : Nat) : HloModule :=
  match m.find? dusId with
  | none => m
  | some dus =>
      let nid := freshIdOf m
      let alloc : Node :=
        { id := nid, op := OpKind.allocateBuffer, operands := [], shape := dus.shape,
          memSpace := c }
      { nodes := (m.nodes.map (fun n =>
          if n.id == dusId then { n with operands := replaceHead n.operands nid } else n))
          ++ [alloc] }

/-- Apply the slice-update rewrites, de-duplicating through the
`dynamic_update_slices_already_handled_` set.  Returns the mutated module,
the performed rewrites, and the final set. -/
def applyDusRewrites (c : Int) : List Nat → HloModule → List Nat →
    HloModule × List (Nat × Nat) × List Nat
  | [], m, handled => (m, [], handled)
  | d :: ds, m, handled =>
      if handled.contains d then applyDusRewrites c ds m handled
      else
        let m' := createAllocateBufferForDus c m d
        let rec2 := applyDusRewrites c ds m' (d :: handled)
        (rec2.1, (d, freshIdOf m) :: rec2.2.1, rec2.2.2)

/-- Find a marker node by id. -/
def findMarker? (ns : List Node) (i : Nat) : Option Node :=
  ns.find? (fun n => n.id == i && isMarker n)

/-- Resolve an operand reference through removed markers: a reference to a
marker is redirected to the marker's own operand, transitively. -/
def resolveRef (ns : List Node) : Nat → Nat → Nat
  | 0, o => o
  | fuel + 1, o =>
      match findMarker? ns o with
      | none => o
      | some mk => resolveRef ns fuel (mk.operands.headD o)

/-- Strip all remaining annotation markers: every marker node is removed and
every reference to one is redirected to its producer. -/
def stripMarkers (m : HloModule) : HloModule :=
  { nodes := (m.nodes.filter (fun n => !(isMarker n))).map
      (fun n => { n with operands := n.operands.map (resolveRef m.nodes m.nodes.length) }) }

/-- Modelled from the spec: the body of `HostOffloader::Run` is in the
missing `host_offloader.cc`.  Three phases, executed once per invocation: (1)
discover the starting points (unvisited `MoveToHost` markers across the
module, and host-typed entry parameters) and walk each, collecting mutation
requests, aborting on a validation failure; (2) apply the tags, copy
insertions (de-duplicated per boundary pair) and slice-update rewrites; (3)
strip all remaining markers, run the scheduling fixer, and report whether a
change was made.  Finding no annotations at all is a no-op reported as
`changed = false`. -/
def runPass (c : Int) (m : HloModule) : Except PassError (Bool × HloModule) :=
  let mths := moveToHostsOf m
  let hostParams := hostParamsOf c m
  if !(m.nodes.any isMarker) && hostParams.isEmpty then .ok (false, m)
  else
    match foldHandle (handleMoveToHost c m) mths WalkState.empty with
    | .error e => .error e
    | .ok st1 =>
        match foldHandle (handleInputStreaming m) hostParams st1 with
        | .error e => .error e
        | .ok st2 =>
            let m1 := applyTags c st2.toTagHost m
            let m2 := (applyCopies st2.copyRequests.reverse m1 []).1
            let m3 := (applyDusRewrites c st2.dusToRewrite.reverse m2 []).1
            let m4 := stripMarkers m3
            .ok (true, applySchedulingFix m4)

/- ### Bookkeeping state across invocations -/

/-- The pass object's bookkeeping members as declared in the header:
`already_visited_move_to_host_custom_calls_`,
`dynamic_update_slices_already_handled_`, `copies_created_after_`, and
`already_inserted_copy_before_`. -/
structure HostOffloaderState where
  alreadyVisitedMoveToHost : List Nat
  dusAlreadyHandled : List Nat
  copiesCreatedAfter : List (Nat × Nat)
  alreadyInsertedCopyBefore : List InstructionAndShapeIndex
deriving DecidableEq, Repr

/-- The empty bookkeeping state. -/
def HostOffloaderState.initial : HostOffloaderState := ⟨[], [], [], []⟩

/-- Modelled from the spec: the body of `HostOffloader::Run` is in the
missing `host_offloader.cc`; per the spec's lifecycle section, the
"pass-local bookkeeping sets (already-visited markers, already-handled
slice-updates, inserted-copy records) are created fresh per invocation and
discarded after the pass returns".  `runStateful` is `Run` viewed as invoked
on a pass object carrying bookkeeping state `s`: the invocation starts from
fresh empty sets (as `runPass` does internally, seeding `WalkState.empty`
and empty de-duplication sets), so the incoming state is never consulted,
and the final sets are dropped from the result. -/
def runStateful (c : Int) (s : HostOffloaderState) (m : HloModule) :
    Except PassError (Bool × HloModule) :=
  runPass c m

/- ### Example modules used by witnesses -/

/-- Example: parameter → `MoveToHost` → copy → `MoveToDevice`. -/
def mChainExample : HloModule :=
  ⟨[⟨0, OpKind.parameter, [], [4], 0⟩,
    ⟨1, OpKind.customCall "MoveToHost", [0], [4], 0⟩,
    ⟨2, OpKind.copy, [1], [4], 0⟩,
    ⟨3, OpKind.customCall "MoveToDevice", [2], [4], 0⟩]⟩

/-- Example with no annotation markers and no host-typed parameters. -/
def mNoOpExample : HloModule :=
  ⟨[⟨0, OpKind.parameter, [], [4], 0⟩,
    ⟨1, OpKind.add, [0, 0], [4], 0⟩]⟩

/-- Example where compute sits on an offload path:
parameter → `MoveToHost` → add → `MoveToDevice`. -/
def mBadExample : HloModule :=
  ⟨[⟨0, OpKind.parameter, [], [4], 0⟩,
    ⟨1, OpKind.customCall "MoveToHost", [0], [4], 0⟩,
    ⟨2, OpKind.add, [1, 1], [4], 0⟩,
    ⟨3, OpKind.customCall "MoveToDevice", [2], [4], 0⟩]⟩

/-- Example with a slice-update idiom: the update operand comes from a
`MoveToHost` marker and the updated buffer flows to `MoveToDevice`. -/
def mDusExample : HloModule :=
  ⟨[⟨0, OpKind.parameter, [], [2], 0⟩,
    ⟨1, OpKind.customCall "MoveToHost", [0], [2], 0⟩,
    ⟨2, OpKind.parameter, [], [8], 0⟩,
    ⟨3, OpKind.constant, [], [], 0⟩,
    ⟨4, OpKind.dynamicUpdateSlice, [2, 1, 3], [8], 0⟩,
    ⟨5, OpKind.customCall "MoveToDevice", [4], [2], 0⟩]⟩

/-- The chain module after the tagging phase: every chain node carries the
host memory color. -/
def taggedChainModule (c : Int) (ops : List OpKind) : HloModule :=
  ⟨⟨0, OpKind.parameter, [], [], 0⟩ ::
   ⟨1, OpKind.customCall "MoveToHost", [0], [], 0⟩ ::
   (chainNodesMS c 2 ops ++
     [⟨2 + ops.length, OpKind.customCall "MoveToDevice", [1 + ops.length], [], 0⟩])⟩

/-- The chain module after both copy insertions: the device-bound copy
before the `MoveToDevice` marker and the host-bound copy after the
`MoveToHost` marker. -/
def mutatedChainModule (c : Int) (ops : List OpKind) : HloModule :=
  ⟨⟨0, OpKind.parameter, [], [], 0⟩ ::
   ⟨1, OpKind.customCall "MoveToHost", [4 + ops.length], [], 0⟩ ::
   (chainNodesMS c 2 ops ++
     [⟨2 + ops.length, OpKind.customCall "MoveToDevice", [3 + ops.length], [], 0⟩,
      ⟨3 + ops.length, OpKind.copy, [1 + ops.length], [], 0⟩,
      ⟨4 + ops.length, OpKind.copy, [0], [], c⟩])⟩

/-- The chain module at the end of the mutation pipeline, markers removed
and references resolved through them. -/
def strippedChainModule (c : Int) (op0 : OpKind) (rest : List OpKind) : HloModule :=
  ⟨⟨0, OpKind.parameter, [], [], 0⟩ ::
   ⟨2, op0, [5 + rest.length], [], c⟩ ::
   (chainNodesMS c 3 rest ++
     [⟨4 + rest.length, OpKind.copy, [2 + rest.length], [], 0⟩,
      ⟨5 + rest.length, OpKind.copy, [0], [], c⟩])⟩

end HostOffload

namespace HostOffload

theorem iasiEq_iff (a b : InstructionAndShapeIndex) :
    iasiEq a b = true ↔ a.instruction = b.instruction ∧ a.shape_index = b.shape_index := by
  simp [iasiEq]

theorem iasiEq_eq_iff (a b : InstructionAndShapeIndex) :
    iasiEq a b = true ↔ a = b := by
  rw [iasiEq_iff]
  constructor
  · rintro ⟨h1, h2⟩
    cases a; cases b; simp_all
  · rintro rfl; exact ⟨rfl, rfl⟩

theorem pickFirst_length {univ emitted : List Nat} :
    ∀ {l : List Node} {n : Node} {rest : List Node},
      pickFirst univ emitted l = some (n, rest) → rest.length + 1 = l.length := by
  intro l
  induction l with
  | nil => intro n rest h; simp [pickFirst] at h
  | cons w ws ih =>
      intro n rest h
      by_cases hp : pickable univ emitted w
      · simp [pickFirst, hp] at h
        simp [h.2.symm]
      · simp [pickFirst, hp] at h
        rcases hrec : pickFirst univ emitted ws with _ | ⟨p, rest'⟩
        · rw [hrec] at h; simp at h
        · rw [hrec] at h
          simp at h
          rcases h with ⟨h1, h2⟩
          subst h2
          have := ih hrec
          simp [List.length_cons]
          omega

theorem pickFirst_pickable {univ emitted : List Nat} :
    ∀ {l : List Node} {n : Node} {rest : List Node},
      pickFirst univ emitted l = some (n, rest) → pickable univ emitted n = true := by
  intro l
  induction l with
  | nil => intro n rest h; simp [pickFirst] at h
  | cons w ws ih =>
      intro n rest h
      by_cases hp : pickable univ emitted w
      · simp [pickFirst, hp] at h
        rw [← h.1]; exact hp
      · simp [pickFirst, hp] at h
        rcases hrec : pickFirst univ emitted ws with _ | ⟨p, rest'⟩
        · rw [hrec] at h; simp at h
        · rw [hrec] at h
          simp at h
          rcases h with ⟨h1, h2⟩
          subst h1
          exact ih hrec

theorem pickFirst_perm {univ emitted : List Nat} :
    ∀ {l : List Node} {n : Node} {rest : List Node},
      pickFirst univ emitted l = some (n, rest) → l.Perm (n :: rest) := by
  intro l
  induction l with
  | nil => intro n rest h; simp [pickFirst] at h
  | cons w ws ih =>
      intro n rest h
      by_cases hp : pickable univ emitted w
      · simp [pickFirst, hp] at h
        rw [h.1, h.2]
      · simp [pickFirst, hp] at h
        rcases hrec : pickFirst univ emitted ws with _ | ⟨p, rest'⟩
        · rw [hrec] at h; simp at h
        · rw [hrec] at h
          simp at h
          obtain ⟨rfl, rfl⟩ := h
          exact (List.Perm.cons w (ih hrec)).trans (List.Perm.swap _ w rest')

theorem topoLoop_of_replayable (univ : List Nat) :
    ∀ (ws : List Node) (fuel : Nat) (emitted : List Nat),
      replayable univ emitted ws = true → topoLoop univ fuel emitted ws = ws := by
  intro ws
  induction ws with
  | nil =>
      intro fuel emitted _
      cases fuel with
      | zero => rfl
      | succ fuel => simp [topoLoop, pickFirst]
  | cons w ws ih =>
      intro fuel emitted hrep
      cases fuel with
      | zero => rfl
      | succ fuel =>
          by_cases hp : pickable univ emitted w
          · have hpf : pickFirst univ emitted (w :: ws) = some (w, ws) := by
              simp [pickFirst, hp]
            simp only [topoLoop, hpf]
            simp [replayable, hp] at hrep
            rw [ih fuel (w.id :: emitted) hrep]
          · simp [replayable, hp] at hrep
            rcases hpf : pickFirst univ emitted (w :: ws) with _ | ⟨p, rest⟩
            · simp only [topoLoop, hpf]
            · rw [hpf] at hrep; simp at hrep

theorem pickFirst_none_replayable (univ : List Nat) (emitted : List Nat) :
    ∀ (ws : List Node), pickFirst univ emitted ws = none → replayable univ emitted ws = true := by
  intro ws h
  cases ws with
  | nil => simp [replayable]
  | cons w ws =>
      have hp : pickable univ emitted w = false := by
        by_contra hcon
        simp at hcon
        simp [pickFirst, hcon] at h
      simp [replayable, hp, h]

theorem replayable_topoLoop (univ : List Nat) :
    ∀ (fuel : Nat) (rem : List Node) (emitted : List Nat), rem.length ≤ fuel →
      replayable univ emitted (topoLoop univ fuel emitted rem) = true := by
  intro fuel
  induction fuel with
  | zero =>
      intro rem emitted hlen
      have : rem = [] := List.length_eq_zero.mp (Nat.le_zero.mp hlen)
      subst this
      simp [topoLoop, replayable]
  | succ k ih =>
      intro rem emitted hlen
      rcases hpf : pickFirst univ emitted rem with _ | ⟨n, rest⟩
      · simp only [topoLoop, hpf]
        exact pickFirst_none_replayable univ emitted rem hpf
      · simp only [topoLoop, hpf]
        have hpk := pickFirst_pickable hpf
        have hlen' := pickFirst_length hpf
        have hrest : rest.length ≤ k := by omega
        have hrec := ih rest (n.id :: emitted) hrest
        simp [replayable, hpk]
        exact hrec

theorem topoLoop_perm (univ : List Nat) :
    ∀ (fuel : Nat) (rem : List Node) (emitted : List Nat),
      rem.Perm (topoLoop univ fuel emitted rem) := by
  intro fuel
  induction fuel with
  | zero => intro rem emitted; exact List.Perm.refl rem
  | succ k ih =>
      intro rem emitted
      rcases hpf : pickFirst univ emitted rem with _ | ⟨n, rest⟩
      · simp only [topoLoop, hpf]
        exact List.Perm.refl rem
      · simp only [topoLoop, hpf]
        have hperm := pickFirst_perm hpf
        exact hperm.trans (List.Perm.cons n (ih rest (n.id :: emitted)))

theorem pickable_congr {univ1 univ2 emitted : List Nat}
    (h : ∀ x, univ1.contains x = univ2.contains x) (n : Node) :
    pickable univ1 emitted n = pickable univ2 emitted n := by
  simp only [pickable]
  congr 1
  funext o
  rw [h o]

theorem pickFirst_congr {univ1 univ2 emitted : List Nat}
    (h : ∀ x, univ1.contains x = univ2.contains x) :
    ∀ (l : List Node), pickFirst univ1 emitted l = pickFirst univ2 emitted l := by
  intro l
  induction l with
  | nil => simp [pickFirst]
  | cons w ws ih =>
      simp only [pickFirst]
      rw [pickable_congr h w, ih]

theorem topoLoop_congr {univ1 univ2 : List Nat}
    (h : ∀ x, univ1.contains x = univ2.contains x) :
    ∀ (fuel : Nat) (rem : List Node) (emitted : List Nat),
      topoLoop univ1 fuel emitted rem = topoLoop univ2 fuel emitted rem := by
  intro fuel
  induction fuel with
  | zero => intro rem emitted; rfl
  | succ k ih =>
      intro rem emitted
      rcases hpf : pickFirst univ1 emitted rem with _ | ⟨n, rest⟩
      · have hpf2 : pickFirst univ2 emitted rem = none := by
          rw [← pickFirst_congr h rem]; exact hpf
        simp only [topoLoop, hpf, hpf2]
      · have hpf2 : pickFirst univ2 emitted rem = some (n, rest) := by
          rw [← pickFirst_congr h rem]; exact hpf
        simp only [topoLoop, hpf, hpf2]
        rw [ih rest (n.id :: emitted)]

theorem applySchedulingFix_idem (m : HloModule) :
    applySchedulingFix (applySchedulingFix m) = applySchedulingFix m := by
  have hperm : m.nodes.Perm (topoLoop (m.nodes.map fun n => n.id) m.nodes.length [] m.nodes) :=
    topoLoop_perm (m.nodes.map fun n => n.id) m.nodes.length m.nodes []
  have hcont : ∀ x,
      ((topoLoop (m.nodes.map fun n => n.id) m.nodes.length [] m.nodes).map
          fun n => n.id).contains x =
        (m.nodes.map fun n => n.id).contains x := by
    intro x
    have hp := hperm.map (fun n => n.id)
    simp [hp.mem_iff]
  have hrep : replayable (m.nodes.map fun n => n.id) []
      (topoLoop (m.nodes.map fun n => n.id) m.nodes.length [] m.nodes) = true :=
    replayable_topoLoop (m.nodes.map fun n => n.id) m.nodes.length m.nodes [] (le_refl _)
  have hfix : topoLoop (m.nodes.map fun n => n.id)
      (topoLoop (m.nodes.map fun n => n.id) m.nodes.length [] m.nodes).length []
      (topoLoop (m.nodes.map fun n => n.id) m.nodes.length [] m.nodes) =
        topoLoop (m.nodes.map fun n => n.id) m.nodes.length [] m.nodes :=
    topoLoop_of_replayable (m.nodes.map fun n => n.id)
      (topoLoop (m.nodes.map fun n => n.id) m.nodes.length [] m.nodes)
      (topoLoop (m.nodes.map fun n => n.id) m.nodes.length [] m.nodes).length [] hrep
  show HloModule.mk _ = HloModule.mk _
  simp only [applySchedulingFix]
  rw [topoLoop_congr hcont
    (topoLoop (m.nodes.map fun n => n.id) m.nodes.length [] m.nodes).length _ []]
  rw [hfix]

/- ### Frame behaviour and marker removal -/

theorem stripMarkers_no_marker (x : HloModule) :
    ∀ n ∈ (stripMarkers x).nodes, isMarker n = false := by
  intro n hn
  simp only [stripMarkers] at hn
  rcases List.mem_map.mp hn with ⟨n0, hn0, rfl⟩
  have hf := List.mem_filter.mp hn0
  have h2 : isMarker n0 = false := by
    have := hf.2
    simp at this
    exact this
  have hsame : isMarker { n0 with operands := n0.operands.map (resolveRef x.nodes x.nodes.length) }
      = isMarker n0 := rfl
  rw [hsame, h2]

theorem mem_applySchedulingFix {x : HloModule} {n : Node}
    (h : n ∈ (applySchedulingFix x).nodes) : n ∈ x.nodes := by
  have hperm := topoLoop_perm (x.nodes.map fun k => k.id) x.nodes.length x.nodes []
  exact hperm.mem_iff.mpr h

theorem runPass_ok_no_markers {c : Int} {m : HloModule} {b : Bool} {m' : HloModule}
    (h : runPass c m = Except.ok (b, m')) : ∀ n ∈ m'.nodes, isMarker n = false := by
  simp only [runPass] at h
  by_cases hc : (!(m.nodes.any isMarker) && (hostParamsOf c m).isEmpty) = true
  · rw [if_pos hc] at h
    simp at h
    obtain ⟨_, hm⟩ := h
    subst hm
    simp at hc
    intro n hn
    have := List.any_eq_false.mp (by simpa using hc.1) n hn
    simpa using this
  · rw [if_neg hc] at h
    rcases h1 : foldHandle (handleMoveToHost c m) (moveToHostsOf m) WalkState.empty with e | st1
    · rw [h1] at h; simp at h
    · rw [h1] at h
      dsimp only at h
      rcases h2 : foldHandle (handleInputStreaming m) (hostParamsOf c m) st1 with e | st2
      · rw [h2] at h; simp at h
      · rw [h2] at h
        simp at h
        obtain ⟨_, hm⟩ := h
        subst hm
        intro n hn
        exact stripMarkers_no_marker _ n (mem_applySchedulingFix hn)

/- ### De-duplication of copy and allocation insertion -/

theorem iasiMem_cons (p q : InstructionAndShapeIndex) (s : List InstructionAndShapeIndex) :
    iasiMem p (q :: s) = (iasiEq q p || iasiMem p s) := by
  simp [iasiMem]

theorem applyCopies_count_le (p : InstructionAndShapeIndex) :
    ∀ (rs : List CopyRequest) (m : HloModule) (ins : List InstructionAndShapeIndex),
      ((applyCopies rs m ins).2.1.countP (fun q => iasiEq q.1 p)) ≤
        (if iasiMem p ins then 0 else 1) := by
  intro rs
  induction rs with
  | nil =>
      intro m ins
      simp [applyCopies]
  | cons r rs ih =>
      intro m ins
      by_cases hmem : iasiMem r.after ins = true
      · simp only [applyCopies]
        rw [if_pos hmem]
        exact ih m ins
      · simp only [applyCopies]
        rw [if_neg hmem]
        have ihrec := ih (insertCopyBetween m r) (r.after :: ins)
        show List.countP (fun q => iasiEq q.1 p)
          ((r.after, freshIdOf m) ::
            (applyCopies rs (insertCopyBetween m r) (r.after :: ins)).2.1) ≤ _
        rw [List.countP_cons]
        by_cases heq : iasiEq r.after p = true
        · have hpmem : iasiMem p (r.after :: ins) = true := by
            rw [iasiMem_cons, heq]
            rfl
          rw [hpmem, if_pos rfl] at ihrec
          have hreq : r.after = p := (iasiEq_eq_iff r.after p).mp heq
          have hpins : iasiMem p ins = false := by
            rw [← hreq]
            simpa using hmem
          have hif : (if iasiMem p ins = true then (0 : Nat) else 1) = 1 := by
            rw [hpins]; simp
          have hone : (if (iasiEq ((r.after, freshIdOf m) :
              InstructionAndShapeIndex × Nat).1 p) = true then (1 : Nat) else 0) = 1 := by
            show (if iasiEq r.after p = true then (1 : Nat) else 0) = 1
            rw [if_pos heq]
          rw [hone, hif]
          omega
        · have hpmem : iasiMem p (r.after :: ins) = iasiMem p ins := by
            rw [iasiMem_cons]
            have : iasiEq r.after p = false := by simpa using heq
            rw [this]
            simp
          rw [hpmem] at ihrec
          have hzero : (if (iasiEq ((r.after, freshIdOf m) :
              InstructionAndShapeIndex × Nat).1 p) = true then (1 : Nat) else 0) = 0 := by
            show (if iasiEq r.after p = true then (1 : Nat) else 0) = 0
            rw [if_neg heq]
          rw [hzero]
          omega

theorem applyDusRewrites_count_le (c : Int) (d : Nat) :
    ∀ (ds : List Nat) (m : HloModule) (handled : List Nat),
      ((applyDusRewrites c ds m handled).2.1.countP (fun q => q.1 == d)) ≤
        (if handled.contains d then 0 else 1) := by
  intro ds
  induction ds with
  | nil =>
      intro m handled
      simp [applyDusRewrites]
  | cons x ds ih =>
      intro m handled
      by_cases hmem : handled.contains x = true
      · simp only [applyDusRewrites]
        rw [if_pos hmem]
        exact ih m handled
      · simp only [applyDusRewrites]
        rw [if_neg hmem]
        have ihrec := ih (createAllocateBufferForDus c m x) (x :: handled)
        show List.countP (fun q => q.1 == d)
          ((x, freshIdOf m) ::
            (applyDusRewrites c ds (createAllocateBufferForDus c m x) (x :: handled)).2.1) ≤ _
        rw [List.countP_cons]
        by_cases heq : x = d
        · subst heq
          have hpmem : (x :: handled).contains x = true := by
            simp [List.contains_cons]
          rw [hpmem, if_pos rfl] at ihrec
          have hpins : handled.contains x = false := by simpa using hmem
          have hif : (if handled.contains x = true then (0 : Nat) else 1) = 1 := by
            rw [hpins]; simp
          have hone : (if (((x, freshIdOf m) : Nat × Nat).1 == x) = true
              then (1 : Nat) else 0) = 1 := by
            show (if (x == x) = true then (1 : Nat) else 0) = 1
            simp
          rw [hone, hif]
          omega
        · have hpmem : (x :: handled).contains d = handled.contains d := by
            simp [List.contains_cons]
            intro h
            exact absurd h.symm heq
          rw [hpmem] at ihrec
          have hzero : (if (((x, freshIdOf m) : Nat × Nat).1 == d) = true
              then (1 : Nat) else 0) = 0 := by
            show (if (x == d) = true then (1 : Nat) else 0) = 0
            have : (x == d) = false := by simpa using heq
            rw [this]
            simp
          rw [hzero]
          omega

/- ### Soundness of the walk's validation error -/

theorem walk_error_reaches (m : HloModule) :
    ∀ (fuel : Nat),
      (∀ (prev cur : Nat) (st : WalkState) (bad : Nat),
        walkFrom m fuel prev cur st = Except.error (PassError.computeOnOffloadPath bad) →
          ReachesBad m prev cur bad) ∧
      (∀ (prev : Nat) (us : List Node) (st : WalkState) (bad : Nat),
        walkList m fuel prev us st = Except.error (PassError.computeOnOffloadPath bad) →
          ∃ u ∈ us, ReachesBad m prev u.id bad) := by
  intro fuel
  induction fuel with
  | zero =>
      constructor
      · intro prev cur st bad h
        simp [walkFrom] at h
      · intro prev us st bad h
        cases us with
        | nil => simp [walkList] at h
        | cons u us' => simp [walkList] at h
  | succ fuel ih =>
      obtain ⟨ihF, ihL⟩ := ih
      constructor
      · intro prev cur st bad h
        simp only [walkFrom] at h
        rcases hf : m.find? cur with _ | n
        · rw [hf] at h; simp at h
        · rw [hf] at h
          dsimp only at h
          by_cases hmtd : isMoveToDevice n = true
          · rw [if_pos hmtd] at h; simp at h
          · have hmtd' : isMoveToDevice n = false := by simpa using hmtd
            rw [if_neg hmtd] at h
            by_cases hdus : isDusSpecial prev n = true
            · rw [if_pos hdus] at h
              obtain ⟨u, hu, hr⟩ := ihL cur (consumersOf m cur) _ bad h
              exact ReachesBad.step prev cur n u bad hf
                (by simp [walkContinues, hmtd', hdus]) hu hr
            · have hdus' : isDusSpecial prev n = false := by simpa using hdus
              rw [if_neg hdus] at h
              by_cases hval : isValidDuringPureMemoryOffload n = true
              · rw [if_pos hval] at h
                obtain ⟨u, hu, hr⟩ := ihL cur (consumersOf m cur) _ bad h
                exact ReachesBad.step prev cur n u bad hf
                  (by simp [walkContinues, hmtd', hval]) hu hr
              · have hval' : isValidDuringPureMemoryOffload n = false := by simpa using hval
                rw [if_neg hval] at h
                have hbad : cur = bad := by simpa using h
                subst hbad
                exact ReachesBad.here prev cur n hf
                  (by simp [isOffending, hmtd', hdus', hval'])
      · intro prev us st bad h
        cases us with
        | nil => simp [walkList] at h
        | cons u us' =>
            simp only [walkList] at h
            rcases hw : walkFrom m fuel prev u.id st with e | st'
            · rw [hw] at h
              simp at h
              subst h
              exact ⟨u, by simp, ihF prev u.id st bad hw⟩
            · rw [hw] at h
              dsimp only at h
              obtain ⟨u', hu', hr⟩ := ihL prev us' st' bad h
              exact ⟨u', by simp [hu'], hr⟩

theorem walkList_ok_elem (m : HloModule) :
    ∀ (us : List Node) (fuel : Nat) (prev : Nat) (st r : WalkState),
      walkList m fuel prev us st = Except.ok r →
      ∀ u ∈ us, ∃ fuel' st' r', walkFrom m fuel' prev u.id st' = Except.ok r' := by
  intro us
  induction us with
  | nil => intro fuel prev st r _ u hu; simp at hu
  | cons u0 us' ih =>
      intro fuel prev st r h u hu
      cases fuel with
      | zero => simp [walkList] at h
      | succ fuel =>
          simp only [walkList] at h
          rcases hw : walkFrom m fuel prev u0.id st with e | st'
          · rw [hw] at h; simp at h
          · rw [hw] at h
            dsimp only at h
            rcases List.mem_cons.mp hu with rfl | hu'
            · exact ⟨fuel, st, st', hw⟩
            · exact ih fuel prev st' r h u hu'

theorem walkFrom_ok_not_reaches (m : HloModule) :
    ∀ {prev cur bad : Nat}, ReachesBad m prev cur bad →
      ∀ (fuel : Nat) (st r : WalkState),
        walkFrom m fuel prev cur st = Except.ok r → False := by
  intro prev cur bad hr
  induction hr with
  | here prev cur n hf hoff =>
      intro fuel st r h
      cases fuel with
      | zero => simp [walkFrom] at h
      | succ fuel =>
          simp only [walkFrom] at h
          rw [hf] at h
          dsimp only at h
          simp only [isOffending, Bool.and_eq_true, Bool.not_eq_eq_eq_not, Bool.not_true] at hoff
          obtain ⟨⟨hmtd, hdus⟩, hval⟩ := hoff
          rw [if_neg (by simp [hmtd]), if_neg (by simp [hdus]), if_neg (by simp [hval])] at h
          simp at h
  | step prev cur n u bad hf hcont hu hrec ih =>
      intro fuel st r h
      cases fuel with
      | zero => simp [walkFrom] at h
      | succ fuel =>
          simp only [walkFrom] at h
          rw [hf] at h
          dsimp only at h
          simp only [walkContinues, Bool.and_eq_true, Bool.not_eq_eq_eq_not, Bool.not_true,
            Bool.or_eq_true] at hcont
          obtain ⟨hmtd, hor⟩ := hcont
          rw [if_neg (by simp [hmtd])] at h
          by_cases hdus : isDusSpecial prev n = true
          · rw [if_pos hdus] at h
            obtain ⟨fuel', st', r', hwx⟩ :=
              walkList_ok_elem m (consumersOf m cur) fuel cur _ r h u hu
            exact ih fuel' st' r' hwx
          · have hval : isValidDuringPureMemoryOffload n = true := by
              rcases hor with hd | hv
              · exact absurd hd hdus
              · exact hv
            rw [if_neg hdus, if_pos hval] at h
            obtain ⟨fuel', st', r', hwx⟩ :=
              walkList_ok_elem m (consumersOf m cur) fuel cur _ r h u hu
            exact ih fuel' st' r' hwx

/- ### Fuel sufficiency on well-formed modules -/

theorem tailAfter_length_le : ∀ (l : List Node) (i : Nat), (tailAfter l i).length ≤ l.length := by
  intro l
  induction l with
  | nil => intro i; simp [tailAfter]
  | cons n rest ih =>
      intro i
      by_cases hn : (n.id == i) = true
      · simp [tailAfter, hn]
      · have hn' : (n.id == i) = false := by simpa using hn
        simp only [tailAfter, hn']
        have := ih i
        simp
        omega

theorem tailAfter_length_lt :
    ∀ (l : List Node) (i : Nat), (∃ x ∈ l, x.id = i) → (tailAfter l i).length < l.length := by
  intro l
  induction l with
  | nil => intro i h; simp at h
  | cons n rest ih =>
      intro i h
      by_cases hn : (n.id == i) = true
      · simp [tailAfter, hn]
      · have hn' : (n.id == i) = false := by simpa using hn
        simp only [tailAfter, hn']
        obtain ⟨x, hx, hxi⟩ := h
        rcases List.mem_cons.mp hx with rfl | hx'
        · exfalso
          apply hn
          simp [hxi]
        · have := ih i ⟨x, hx', hxi⟩
          simp
          omega

theorem wfAux_ids_not_seen :
    ∀ (l : List Node) (seen : List Nat), wfAux seen l = true →
      ∀ x ∈ l, seen.contains x.id = false := by
  intro l
  induction l with
  | nil => intro seen _ x hx; simp at hx
  | cons n rest ih =>
      intro seen hwf x hx
      simp only [wfAux, Bool.and_eq_true] at hwf
      obtain ⟨⟨_, hnid⟩, hrest⟩ := hwf
      rcases List.mem_cons.mp hx with rfl | hx'
      · simpa using hnid
      · have := ih (n.id :: seen) hrest x hx'
        rw [List.contains_cons] at this
        rcases Bool.or_eq_false_iff.mp this with ⟨_, h2⟩
        exact h2

theorem wfAux_operand_lt :
    ∀ (l : List Node) (seen : List Nat), wfAux seen l = true →
      ∀ u ∈ l, ∀ o ∈ u.operands, seen.contains o = false →
        (tailAfter l u.id).length < (tailAfter l o).length := by
  intro l
  induction l with
  | nil => intro seen _ u hu; simp at hu
  | cons n rest ih =>
      intro seen hwf u hu o ho hos
      simp only [wfAux, Bool.and_eq_true] at hwf
      obtain ⟨⟨hops, hnid⟩, hrest⟩ := hwf
      rcases List.mem_cons.mp hu with rfl | hu'
      · exfalso
        have : seen.contains o = true := by
          have := List.all_eq_true.mp hops o ho
          simpa using this
        rw [hos] at this
        exact Bool.false_ne_true this
      · have hne : (n.id == u.id) = false := by
          have hns := wfAux_ids_not_seen rest (n.id :: seen) hrest u hu'
          rw [List.contains_cons] at hns
          rcases Bool.or_eq_false_iff.mp hns with ⟨h1, _⟩
          have : u.id ≠ n.id := by simpa using h1
          simp
          omega
        by_cases hon : (n.id == o) = true
        · simp only [tailAfter, hne, hon]
          exact tailAfter_length_lt rest u.id ⟨u, hu', rfl⟩
        · have hon' : (n.id == o) = false := by simpa using hon
          simp only [tailAfter, hne, hon']
          apply ih (n.id :: seen) hrest u hu' o ho
          rw [List.contains_cons]
          have h1 : (o == n.id) = false := by
            have : n.id ≠ o := by simpa using hon
            simp
            omega
          rw [h1, hos]
          rfl

theorem consumersOf_operand {m : HloModule} {i : Nat} {u : Node}
    (hu : u ∈ consumersOf m i) : u ∈ m.nodes ∧ i ∈ u.operands := by
  have := List.mem_filter.mp hu
  refine ⟨this.1, ?_⟩
  have h2 := this.2
  simpa using h2

theorem wf_consumer_tail_lt {m : HloModule} (hwf : m.wf = true) {i : Nat} {u : Node}
    (hu : u ∈ consumersOf m i) :
    (tailAfter m.nodes u.id).length < (tailAfter m.nodes i).length := by
  obtain ⟨hmem, hop⟩ := consumersOf_operand hu
  exact wfAux_operand_lt m.nodes [] hwf u hmem i hop rfl

theorem walk_good (m : HloModule) (hwf : m.wf = true) :
    ∀ (fuel : Nat),
      (∀ (prev cur : Nat) (st : WalkState), (∃ x ∈ m.nodes, x.id = cur) →
        ((tailAfter m.nodes cur).length + 1) * (m.nodes.length + 2) ≤ fuel →
        goodResult (walkFrom m fuel prev cur st)) ∧
      (∀ (prev : Nat) (us : List Node) (st : WalkState) (T : Nat),
        (∀ u ∈ us, u ∈ m.nodes ∧ (tailAfter m.nodes u.id).length ≤ T) →
        (T + 1) * (m.nodes.length + 2) + us.length ≤ fuel →
        goodResult (walkList m fuel prev us st)) := by
  intro fuel
  induction fuel with
  | zero =>
      constructor
      · intro prev cur st _ hbound
        exfalso
        have hpos : 0 < ((tailAfter m.nodes cur).length + 1) * (m.nodes.length + 2) :=
          Nat.mul_pos (Nat.succ_pos _) (by omega)
        omega
      · intro prev us st T _ hbound
        cases us with
        | nil => simp [walkList, goodResult]
        | cons u us' =>
            exfalso
            have hpos : 0 < (T + 1) * (m.nodes.length + 2) :=
              Nat.mul_pos (Nat.succ_pos _) (by omega)
            simp at hbound
  | succ fuel ih =>
      obtain ⟨ihF, ihL⟩ := ih
      constructor
      · intro prev cur st hex hbound
        simp only [walkFrom]
        rcases hfind : m.find? cur with _ | n
        · exfalso
          obtain ⟨x, hx, hxi⟩ := hex
          have := List.find?_eq_none.mp hfind x hx
          simp [hxi] at this
        · dsimp only
          by_cases hmtd : isMoveToDevice n = true
          · rw [if_pos hmtd]
            simp [goodResult]
          · rw [if_neg hmtd]
            have hgoal : ∀ st' : WalkState,
                goodResult (walkList m fuel cur (consumersOf m cur) st') := by
              intro st'
              rcases hcons : consumersOf m cur with _ | ⟨u0, us0⟩
              · simp [walkList, goodResult]
              · have hlt : ∀ u ∈ consumersOf m cur,
                    (tailAfter m.nodes u.id).length < (tailAfter m.nodes cur).length := by
                  intro u hu
                  exact wf_consumer_tail_lt hwf hu
                have ht1 : 1 ≤ (tailAfter m.nodes cur).length := by
                  have hu0 : u0 ∈ consumersOf m cur := by rw [hcons]; simp
                  have := hlt u0 hu0
                  omega
                have hlen : (consumersOf m cur).length ≤ m.nodes.length := by
                  have := List.length_filter_le (fun n => n.operands.contains cur) m.nodes
                  exact this
                rw [← hcons]
                apply ihL cur (consumersOf m cur) st' ((tailAfter m.nodes cur).length - 1)
                · intro u hu
                  refine ⟨(consumersOf_operand hu).1, ?_⟩
                  have := hlt u hu
                  omega
                · have hexp : ((tailAfter m.nodes cur).length - 1 + 1) =
                      (tailAfter m.nodes cur).length := by omega
                  rw [hexp]
                  have hsplit : ((tailAfter m.nodes cur).length + 1) * (m.nodes.length + 2) =
                      (tailAfter m.nodes cur).length * (m.nodes.length + 2) +
                        (m.nodes.length + 2) := by ring
                  rw [hsplit] at hbound
                  rw [hcons] at hlen ⊢
                  simp at hlen ⊢
                  omega
            by_cases hdus : isDusSpecial prev n = true
            · rw [if_pos hdus]
              exact hgoal _
            · rw [if_neg hdus]
              by_cases hval : isValidDuringPureMemoryOffload n = true
              · rw [if_pos hval]
                exact hgoal _
              · rw [if_neg hval]
                simp [goodResult]
      · intro prev us st T hall hbound
        cases us with
        | nil => simp [walkList, goodResult]
        | cons u us' =>
            simp only [walkList]
            have hbound' : (T + 1) * (m.nodes.length + 2) + us'.length ≤ fuel := by
              simp at hbound
              omega
            have huf : ((tailAfter m.nodes u.id).length + 1) * (m.nodes.length + 2) ≤ fuel := by
              have hmono : ((tailAfter m.nodes u.id).length + 1) * (m.nodes.length + 2) ≤
                  (T + 1) * (m.nodes.length + 2) := by
                apply Nat.mul_le_mul_right
                have := (hall u (by simp)).2
                omega
              omega
            have hgoodF := ihF prev u.id st ⟨u, (hall u (by simp)).1, rfl⟩ huf
            rcases hw : walkFrom m fuel prev u.id st with e | st'
            · rw [hw] at hgoodF
              exact hgoodF
            · dsimp only
              exact ihL prev us' st' T (fun v hv => hall v (by simp [hv])) hbound'

/- ### Top-level orchestration lemmas -/

theorem foldHandle_error {α : Type} (f : α → WalkState → Except PassError WalkState) :
    ∀ (xs : List α) (st : WalkState) (e : PassError),
      foldHandle f xs st = Except.error e → ∃ x ∈ xs, ∃ st', f x st' = Except.error e := by
  intro xs
  induction xs with
  | nil => intro st e h; simp [foldHandle] at h
  | cons x xs' ih =>
      intro st e h
      simp only [foldHandle] at h
      rcases hf : f x st with e' | st'
      · rw [hf] at h
        simp at h
        subst h
        exact ⟨x, by simp, st, hf⟩
      · rw [hf] at h
        dsimp only at h
        obtain ⟨x', hx', st'', hfx⟩ := ih st' e h
        exact ⟨x', by simp [hx'], st'', hfx⟩

theorem foldHandle_ok_elem {α : Type} (f : α → WalkState → Except PassError WalkState) :
    ∀ (xs : List α) (st r : WalkState), foldHandle f xs st = Except.ok r →
      ∀ x ∈ xs, ∃ st' r', f x st' = Except.ok r' := by
  intro xs
  induction xs with
  | nil => intro st r _ x hx; simp at hx
  | cons x0 xs' ih =>
      intro st r h x hx
      simp only [foldHandle] at h
      rcases hf : f x0 st with e' | st'
      · rw [hf] at h; simp at h
      · rw [hf] at h
        dsimp only at h
        rcases List.mem_cons.mp hx with rfl | hx'
        · exact ⟨st, st', hf⟩
        · exact ih st' r h x hx'

theorem handleMoveToHost_ok_walkList {c : Int} {m : HloModule} {mc : Node}
    {st r : WalkState} (h : handleMoveToHost c m mc st = Except.ok r) :
    ∃ r', walkList m (walkFuel m) mc.id (consumersOf m mc.id) st = Except.ok r' := by
  simp only [handleMoveToHost] at h
  rcases hw : walkList m (walkFuel m) mc.id (consumersOf m mc.id) st with e | st'
  · rw [hw] at h; simp at h
  · exact ⟨st', rfl⟩

theorem handleMoveToHost_error_walkList {c : Int} {m : HloModule} {mc : Node}
    {st : WalkState} {e : PassError} (h : handleMoveToHost c m mc st = Except.error e) :
    walkList m (walkFuel m) mc.id (consumersOf m mc.id) st = Except.error e := by
  simp only [handleMoveToHost] at h
  rcases hw : walkList m (walkFuel m) mc.id (consumersOf m mc.id) st with e' | st'
  · rw [hw] at h
    simp at h
    rw [h]
  · rw [hw] at h
    dsimp only at h
    by_cases hc2 : (st'.dusToRewrite.length == st.dusToRewrite.length) = true
    · rw [if_pos hc2] at h; simp at h
    · rw [if_neg hc2] at h; simp at h

theorem handleMoveToHost_good {c : Int} {m : HloModule} (hwf : m.wf = true) :
    ∀ (mc : Node) (st : WalkState) (e : PassError), mc ∈ m.nodes →
      handleMoveToHost c m mc st = Except.error e →
        ∃ b, e = PassError.computeOnOffloadPath b := by
  intro mc st e _ h
  have hwl := handleMoveToHost_error_walkList h
  have hgood := (walk_good m hwf (walkFuel m)).2 mc.id (consumersOf m mc.id) st
    m.nodes.length
    (fun u hu => ⟨(consumersOf_operand hu).1, tailAfter_length_le m.nodes u.id⟩)
    (by
      have hlen : (consumersOf m mc.id).length ≤ m.nodes.length :=
        List.length_filter_le _ m.nodes
      have hexp : (m.nodes.length + 2) * (m.nodes.length + 2) =
          (m.nodes.length + 1) * (m.nodes.length + 2) + (m.nodes.length + 2) := by ring
      simp only [walkFuel, hexp]
      omega)
  rw [hwl] at hgood
  cases e with
  | computeOnOffloadPath b => exact ⟨b, rfl⟩
  | missingNode i => exact hgood.elim
  | outOfFuel => exact hgood.elim

theorem handleInputStreaming_good {m : HloModule} (hwf : m.wf = true) :
    ∀ (p : Node) (st : WalkState) (e : PassError), p ∈ m.nodes →
      handleInputStreaming m p st = Except.error e →
        ∃ b, e = PassError.computeOnOffloadPath b := by
  intro p st e hp h
  simp only [handleInputStreaming] at h
  have hgood := (walk_good m hwf (walkFuel m)).1 p.id p.id st ⟨p, hp, rfl⟩
    (by
      have ht : (tailAfter m.nodes p.id).length ≤ m.nodes.length :=
        tailAfter_length_le m.nodes p.id
      have hmono : ((tailAfter m.nodes p.id).length + 1) * (m.nodes.length + 2) ≤
          (m.nodes.length + 1) * (m.nodes.length + 2) := by
        apply Nat.mul_le_mul_right
        omega
      have hexp : (m.nodes.length + 2) * (m.nodes.length + 2) =
          (m.nodes.length + 1) * (m.nodes.length + 2) + (m.nodes.length + 2) := by ring
      simp only [walkFuel, hexp]
      omega)
  rw [h] at hgood
  cases e with
  | computeOnOffloadPath b => exact ⟨b, rfl⟩
  | missingNode i => exact hgood.elim
  | outOfFuel => exact hgood.elim

theorem runPass_error_compute {c : Int} {m : HloModule} {e : PassError}
    (hwf : m.wf = true) (h : runPass c m = Except.error e) :
    ∃ b, e = PassError.computeOnOffloadPath b := by
  simp only [runPass] at h
  by_cases hc : (!(m.nodes.any isMarker) && (hostParamsOf c m).isEmpty) = true
  · rw [if_pos hc] at h; simp at h
  · rw [if_neg hc] at h
    rcases h1 : foldHandle (handleMoveToHost c m) (moveToHostsOf m) WalkState.empty with e1 | st1
    · rw [h1] at h
      simp at h
      subst h
      obtain ⟨mc, hmc, st', hh⟩ := foldHandle_error _ _ _ _ h1
      exact handleMoveToHost_good hwf mc st' e1 (List.mem_filter.mp hmc).1 hh
    · rw [h1] at h
      dsimp only at h
      rcases h2 : foldHandle (handleInputStreaming m) (hostParamsOf c m) st1 with e2 | st2
      · rw [h2] at h
        simp at h
        subst h
        obtain ⟨p, hp, st', hh⟩ := foldHandle_error _ _ _ _ h2
        exact handleInputStreaming_good hwf p st' e2 (List.mem_filter.mp hp).1 hh
      · rw [h2] at h; simp at h

theorem runPass_compute_reaches {c : Int} {m : HloModule} {b : Nat}
    (h : runPass c m = Except.error (PassError.computeOnOffloadPath b)) :
    StartReachesBad c m b := by
  simp only [runPass] at h
  by_cases hc : (!(m.nodes.any isMarker) && (hostParamsOf c m).isEmpty) = true
  · rw [if_pos hc] at h; simp at h
  · rw [if_neg hc] at h
    rcases h1 : foldHandle (handleMoveToHost c m) (moveToHostsOf m) WalkState.empty with e1 | st1
    · rw [h1] at h
      simp at h
      subst h
      obtain ⟨mc, hmc, st', hh⟩ := foldHandle_error _ _ _ _ h1
      have hwl := handleMoveToHost_error_walkList hh
      obtain ⟨u, hu, hr⟩ := (walk_error_reaches m (walkFuel m)).2 mc.id
        (consumersOf m mc.id) st' b hwl
      exact Or.inl ⟨mc, (List.mem_filter.mp hmc).1,
        by simpa using (List.mem_filter.mp hmc).2, u, hu, hr⟩
    · rw [h1] at h
      dsimp only at h
      rcases h2 : foldHandle (handleInputStreaming m) (hostParamsOf c m) st1 with e2 | st2
      · rw [h2] at h
        simp at h
        subst h
        obtain ⟨p, hp, st', hh⟩ := foldHandle_error _ _ _ _ h2
        have hr := (walk_error_reaches m (walkFuel m)).1 p.id p.id st' b
          (by simpa [handleInputStreaming] using hh)
        exact Or.inr ⟨p, hp, hr⟩
      · rw [h2] at h; simp at h

theorem runPass_error_of_mth_reaches (c : Int) {m : HloModule} {bad : Nat}
    (hr : MthStartReachesBad m bad) : ∃ e, runPass c m = Except.error e := by
  obtain ⟨mc, hmc, hmth, u, hu, hreach⟩ := hr
  have hmarker : m.nodes.any isMarker = true :=
    List.any_eq_true.mpr ⟨mc, hmc, by simp [isMarker, hmth]⟩
  simp only [runPass]
  rw [if_neg (by simp [hmarker])]
  rcases h1 : foldHandle (handleMoveToHost c m) (moveToHostsOf m) WalkState.empty with e1 | st1
  · exact ⟨e1, rfl⟩
  · exfalso
    have hmcf : mc ∈ moveToHostsOf m := List.mem_filter.mpr ⟨hmc, by simpa using hmth⟩
    obtain ⟨st', r', hok⟩ := foldHandle_ok_elem _ _ _ _ h1 mc hmcf
    obtain ⟨r'', hwl⟩ := handleMoveToHost_ok_walkList hok
    obtain ⟨fuel', st'', r3, hwx⟩ :=
      walkList_ok_elem m (consumersOf m mc.id) (walkFuel m) mc.id st' r'' hwl u hu
    exact walkFrom_ok_not_reaches m hreach fuel' st'' r3 hwx

theorem runPass_noop (c : Int) (m : HloModule)
    (h1 : m.nodes.any isMarker = false) (h2 : hostParamsOf c m = []) :
    runPass c m = Except.ok (false, m) := by
  simp only [runPass]
  rw [h1, h2]
  simp

/- ### Theorems for the `InstructionAndShapeIndex` key type -/

theorem hostParams_mkDus (c : Int) (hc : c ≠ 0) (sh1 sh2 : List Nat) :
    hostParamsOf c (mkDusModule sh1 sh2) = [] := by
  have h0 : ((0 : Int) == c) = false := by
    simp
    exact Ne.symm hc
  simp +decide [hostParamsOf, mkDusModule, List.filter, h0]

theorem runPass_mkDus (c : Int) (hc : c ≠ 0) (sh1 sh2 : List Nat) :
    runPass c (mkDusModule sh1 sh2) = Except.ok (true, mkDusResult c sh1 sh2) := by
  have hhp := hostParams_mkDus c hc sh1 sh2
  have h1 : foldHandle (handleMoveToHost c (mkDusModule sh1 sh2))
      (moveToHostsOf (mkDusModule sh1 sh2)) WalkState.empty =
      Except.ok ⟨[4], [⟨4, ⟨5, []⟩, 0⟩], [4]⟩ := rfl
  have hmk : (mkDusModule sh1 sh2).nodes.any isMarker = true := rfl
  have h3 : applyTags c [4] (mkDusModule sh1 sh2) =
      ⟨[⟨0, OpKind.parameter, [], sh1, 0⟩,
        ⟨1, OpKind.customCall "MoveToHost", [0], sh1, 0⟩,
        ⟨2, OpKind.parameter, [], sh2, 0⟩,
        ⟨3, OpKind.constant, [], [], 0⟩,
        ⟨4, OpKind.dynamicUpdateSlice, [2, 1, 3], sh2, c⟩,
        ⟨5, OpKind.customCall "MoveToDevice", [4], sh2, 0⟩]⟩ := rfl
  have h4 : (applyCopies ([(⟨4, ⟨5, []⟩, 0⟩ : CopyRequest)].reverse)
      (⟨[⟨0, OpKind.parameter, [], sh1, 0⟩,
        ⟨1, OpKind.customCall "MoveToHost", [0], sh1, 0⟩,
        ⟨2, OpKind.parameter, [], sh2, 0⟩,
        ⟨3, OpKind.constant, [], [], 0⟩,
        ⟨4, OpKind.dynamicUpdateSlice, [2, 1, 3], sh2, c⟩,
        ⟨5, OpKind.customCall "MoveToDevice", [4], sh2, 0⟩]⟩ : HloModule) []).1 =
      ⟨[⟨0, OpKind.parameter, [], sh1, 0⟩,
        ⟨1, OpKind.customCall "MoveToHost", [0], sh1, 0⟩,
        ⟨2, OpKind.parameter, [], sh2, 0⟩,
        ⟨3, OpKind.constant, [], [], 0⟩,
        ⟨4, OpKind.dynamicUpdateSlice, [2, 1, 3], sh2, c⟩,
        ⟨5, OpKind.customCall "MoveToDevice", [6], sh2, 0⟩,
        ⟨6, OpKind.copy, [4], sh2, 0⟩]⟩ := rfl
  have h5 : (applyDusRewrites c ([4].reverse)
      (⟨[⟨0, OpKind.parameter, [], sh1, 0⟩,
        ⟨1, OpKind.customCall "MoveToHost", [0], sh1, 0⟩,
        ⟨2, OpKind.parameter, [], sh2, 0⟩,
        ⟨3, OpKind.constant, [], [], 0⟩,
        ⟨4, OpKind.dynamicUpdateSlice, [2, 1, 3], sh2, c⟩,
        ⟨5, OpKind.customCall "MoveToDevice", [6], sh2, 0⟩,
        ⟨6, OpKind.copy, [4], sh2, 0⟩]⟩ : HloModule) []).1 =
      ⟨[⟨0, OpKind.parameter, [], sh1, 0⟩,
        ⟨1, OpKind.customCall "MoveToHost", [0], sh1, 0⟩,
        ⟨2, OpKind.parameter, [], sh2, 0⟩,
        ⟨3, OpKind.constant, [], [], 0⟩,
        ⟨4, OpKind.dynamicUpdateSlice, [7, 1, 3], sh2, c⟩,
        ⟨5, OpKind.customCall "MoveToDevice", [6], sh2, 0⟩,
        ⟨6, OpKind.copy, [4], sh2, 0⟩,
        ⟨7, OpKind.allocateBuffer, [], sh2, c⟩]⟩ := rfl
  have h6 : stripMarkers
      (⟨[⟨0, OpKind.parameter, [], sh1, 0⟩,
        ⟨1, OpKind.customCall "MoveToHost", [0], sh1, 0⟩,
        ⟨2, OpKind.parameter, [], sh2, 0⟩,
        ⟨3, OpKind.constant, [], [], 0⟩,
        ⟨4, OpKind.dynamicUpdateSlice, [7, 1, 3], sh2, c⟩,
        ⟨5, OpKind.customCall "MoveToDevice", [6], sh2, 0⟩,
        ⟨6, OpKind.copy, [4], sh2, 0⟩,
        ⟨7, OpKind.allocateBuffer, [], sh2, c⟩]⟩ : HloModule) =
      ⟨[⟨0, OpKind.parameter, [], sh1, 0⟩,
        ⟨2, OpKind.parameter, [], sh2, 0⟩,
        ⟨3, OpKind.constant, [], [], 0⟩,
        ⟨4, OpKind.dynamicUpdateSlice, [7, 0, 3], sh2, c⟩,
        ⟨6, OpKind.copy, [4], sh2, 0⟩,
        ⟨7, OpKind.allocateBuffer, [], sh2, c⟩]⟩ := rfl
  have h7 : applySchedulingFix
      (⟨[⟨0, OpKind.parameter, [], sh1, 0⟩,
        ⟨2, OpKind.parameter, [], sh2, 0⟩,
        ⟨3, OpKind.constant, [], [], 0⟩,
        ⟨4, OpKind.dynamicUpdateSlice, [7, 0, 3], sh2, c⟩,
        ⟨6, OpKind.copy, [4], sh2, 0⟩,
        ⟨7, OpKind.allocateBuffer, [], sh2, c⟩]⟩ : HloModule) =
      mkDusResult c sh1 sh2 := rfl
  simp only [runPass, hhp]
  rw [if_neg (by simp [hmk])]
  rw [h1]
  dsimp only [foldHandle]
  rw [h3, h4, h5, h6, h7]


theorem chainNodesMS_mem :
    ∀ (l : List OpKind) (ms : Int) (i : Nat) (n : Node), n ∈ chainNodesMS ms i l →
      n.op ∈ l ∧ n.shape = [] ∧ n.memSpace = ms ∧ n.operands = [n.id - 1] ∧
        i ≤ n.id ∧ n.id < i + l.length := by
  intro l
  induction l with
  | nil => intro ms i n hn; simp [chainNodesMS] at hn
  | cons op rest ih =>
      intro ms i n hn
      simp only [chainNodesMS] at hn
      rcases List.mem_cons.mp hn with rfl | hn'
      · exact ⟨by simp, rfl, rfl, rfl, le_refl i, by simp⟩
      · obtain ⟨h1, h2, h3, h4, h5, h6⟩ := ih ms (i + 1) n hn'
        exact ⟨by simp [h1], h2, h3, h4, by omega, by simp; omega⟩

theorem chainNodesMS_mem_intro :
    ∀ (l : List OpKind) (ms : Int) (i j : Nat), i ≤ j → j < i + l.length →
      ∃ op ∈ l, (⟨j, op, [j - 1], [], ms⟩ : Node) ∈ chainNodesMS ms i l := by
  intro l
  induction l with
  | nil => intro ms i j h1 h2; simp at h2; omega
  | cons op rest ih =>
      intro ms i j h1 h2
      by_cases hij : j = i
      · subst hij
        exact ⟨op, by simp, by simp [chainNodesMS]⟩
      · have h1' : i + 1 ≤ j := by omega
        have h2' : j < (i + 1) + rest.length := by simp at h2; omega
        obtain ⟨op', hop', hmem⟩ := ih ms (i + 1) j h1' h2'
        exact ⟨op', by simp [hop'], by simp [chainNodesMS, hmem]⟩

theorem wfAux_chain_mtd (t : String) :
    ∀ (l : List OpKind) (ms : Int) (i : Nat) (seen : List Nat),
      (∀ x, x ∈ seen ↔ x < i) → 1 ≤ i →
      wfAux seen (chainNodesMS ms i l ++
        [⟨i + l.length, OpKind.customCall t, [i + l.length - 1], [], 0⟩]) = true := by
  intro l
  induction l with
  | nil =>
      intro ms i seen hseen hi
      simp only [chainNodesMS, List.nil_append, wfAux, Bool.and_eq_true]
      refine ⟨⟨?_, ?_⟩, trivial⟩
      · simp only [List.all_eq_true]
        intro o ho
        simp at ho
        subst ho
        simp
        exact (hseen (i + 0 - 1)).mpr (by omega)
      · simp
        intro hcont
        have := (hseen (i + 0)).mp hcont
        omega
  | cons op rest ih =>
      intro ms i seen hseen hi
      simp only [chainNodesMS, List.cons_append, wfAux, Bool.and_eq_true]
      refine ⟨⟨?_, ?_⟩, ?_⟩
      · simp only [List.all_eq_true]
        intro o ho
        simp at ho
        subst ho
        simp
        exact (hseen (i - 1)).mpr (by omega)
      · simp
        intro hcont
        have := (hseen i).mp hcont
        omega
      · have hlen : (i + 1) + rest.length = i + (op :: rest).length := by simp; omega
        have hinv : ∀ x, x ∈ (i :: seen) ↔ x < i + 1 := by
          intro x
          simp only [List.mem_cons]
          constructor
          · intro hx
            rcases hx with rfl | hx
            · omega
            · have := (hseen x).mp hx
              omega
          · intro hx
            by_cases hxi : x = i
            · exact Or.inl hxi
            · exact Or.inr ((hseen x).mpr (by omega))
        have := ih ms (i + 1) (i :: seen) hinv (by omega)
        rw [hlen] at this
        exact this

theorem mkChainModule_wf (ops : List OpKind) : (mkChainModule ops).wf = true := by
  simp only [mkChainModule, HloModule.wf, wfAux, Bool.and_eq_true]
  refine ⟨⟨by simp, by simp⟩, ⟨by simp, by simp⟩, ?_⟩
  have heq : 1 + ops.length = 2 + ops.length - 1 := by omega
  rw [heq]
  apply wfAux_chain_mtd "MoveToDevice" ops 0 2 [1, 0]
  · intro x
    simp
    omega
  · omega

theorem wfAux_map_id_nodup :
    ∀ (l : List Node) (seen : List Nat), wfAux seen l = true →
      (l.map (fun n => n.id)).Nodup := by
  intro l
  induction l with
  | nil => intro seen _; simp
  | cons n rest ih =>
      intro seen hwf
      simp only [wfAux, Bool.and_eq_true] at hwf
      obtain ⟨⟨_, _⟩, hrest⟩ := hwf
      simp only [List.map_cons, List.nodup_cons]
      constructor
      · intro hmem
        rcases List.mem_map.mp hmem with ⟨x, hx, hxid⟩
        have := wfAux_ids_not_seen rest (n.id :: seen) hrest x hx
        rw [List.contains_cons] at this
        rcases Bool.or_eq_false_iff.mp this with ⟨h1, _⟩
        have : x.id ≠ n.id := by simpa using h1
        exact this hxid
      · exact ih (n.id :: seen) hrest

theorem find?_eq_of_wf {m : HloModule} (hwf : m.wf = true) {n : Node} (hn : n ∈ m.nodes) :
    m.find? n.id = some n := by
  simp only [HloModule.find?]
  rcases hfind : m.nodes.find? (fun x => x.id == n.id) with _ | x
  · exfalso
    have := List.find?_eq_none.mp hfind n hn
    simp at this
  · have hx : x ∈ m.nodes := List.mem_of_find?_eq_some hfind
    have hxid := List.find?_some hfind
    have hnodup := wfAux_map_id_nodup m.nodes [] hwf
    have hinj := List.inj_on_of_nodup_map hnodup
    have : x = n := hinj hx hn (by simpa using hxid)
    rw [hfind, this]

theorem chainNodesMS_filter_out :
    ∀ (l : List OpKind) (ms : Int) (i j : Nat), 1 ≤ i → (j + 1 < i ∨ i + l.length ≤ j + 1) →
      (chainNodesMS ms i l).filter (fun n => n.operands.contains j) = [] := by
  intro l
  induction l with
  | nil => intro ms i j _ _; simp [chainNodesMS]
  | cons op rest ih =>
      intro ms i j hi hout
      simp only [chainNodesMS, List.filter_cons]
      have hne : ([i - 1].contains j) = false := by
        have hne' : j ≠ i - 1 := by
          rcases hout with h | h
          · omega
          · simp at h
            omega
        simpa using hne' 
      rw [hne]
      simp only [Bool.false_eq_true, if_false]
      apply ih _ _ _ (by omega)
      rcases hout with h | h
      · exact Or.inl (by omega)
      · exact Or.inr (by simp at h ⊢; omega)

theorem chainNodesMS_filter_in :
    ∀ (l : List OpKind) (ms : Int) (i j : Nat), 1 ≤ i → i ≤ j + 1 → j + 1 < i + l.length →
      ∃ op ∈ l, (chainNodesMS ms i l).filter (fun n => n.operands.contains j) =
        [⟨j + 1, op, [j], [], ms⟩] := by
  intro l
  induction l with
  | nil => intro ms i j _ h1 h2; simp at h2; omega
  | cons op rest ih =>
      intro ms i j hi h1 h2
      simp only [chainNodesMS, List.filter_cons]
      by_cases hij : i = j + 1
      · have hyes : ([i - 1].contains j) = true := by
          simp
          omega
        rw [hyes]
        simp only [if_true]
        have hrest : (chainNodesMS ms (i + 1) rest).filter
            (fun n => n.operands.contains j) = [] := by
          apply chainNodesMS_filter_out _ _ _ _ (by omega)
          exact Or.inl (by omega)
        rw [hrest]
        refine ⟨op, by simp, ?_⟩
        subst hij
        have : j + 1 - 1 = j := by omega
        rw [this]
      · have hno : ([i - 1].contains j) = false := by
          simp
          omega
        rw [hno]
        simp only [Bool.false_eq_true, if_false]
        obtain ⟨op', hop', heq⟩ := ih ms (i + 1) j (by omega) (by omega) (by simp at h2; omega)
        exact ⟨op', by simp [hop'], heq⟩

theorem consumersOf_mkChain_mid (ops : List OpKind) (j : Nat) (h1 : 1 ≤ j)
    (h2 : j + 1 < 2 + ops.length) :
    ∃ op ∈ ops, consumersOf (mkChainModule ops) j = [⟨j + 1, op, [j], [], 0⟩] := by
  simp only [consumersOf, mkChainModule, List.filter_cons, List.filter_append]
  have hp0 : (([] : List Nat).contains j) = false := by simp
  have hmth : ([0].contains j) = false := by simp; omega
  have hmtd : ([1 + ops.length].contains j) = false := by simp; omega
  rw [hp0, hmth]
  obtain ⟨op, hop, heq⟩ := chainNodesMS_filter_in ops 0 2 j (by omega) (by omega) (by omega)
  rw [heq]
  simp only [List.filter_cons, hmtd]
  exact ⟨op, hop, by simp⟩

theorem consumersOf_mkChain_last (ops : List OpKind) :
    consumersOf (mkChainModule ops) (1 + ops.length) =
      [⟨2 + ops.length, OpKind.customCall "MoveToDevice", [1 + ops.length], [], 0⟩] := by
  simp only [consumersOf, mkChainModule, List.filter_cons, List.filter_append]
  have hp0 : (([] : List Nat).contains (1 + ops.length)) = false := by simp
  have hmth : ([0].contains (1 + ops.length)) = false := by simp
  have hmtd : ([1 + ops.length].contains (1 + ops.length)) = true := by simp
  rw [hp0, hmth]
  have hchain : (chainNodesMS 0 2 ops).filter
      (fun n => n.operands.contains (1 + ops.length)) = [] := by
    apply chainNodesMS_filter_out _ _ _ _ (by omega)
    exact Or.inr (by omega)
  rw [hchain]
  simp only [List.filter_cons, hmtd]
  simp

theorem mem_range'_iff (x s n : Nat) : x ∈ List.range' s n ↔ s ≤ x ∧ x < s + n := by
  rw [List.mem_range']
  constructor
  · rintro ⟨i, hi, rfl⟩; omega
  · rintro ⟨h1, h2⟩; exact ⟨x - s, by omega, by omega⟩

theorem isValidOp_ne_customCall {op : OpKind} (h : isValidOp op = true) (t : String) :
    (op == OpKind.customCall t) = false := by
  cases op <;> simp_all [isValidOp]

theorem walk_chain (ops : List OpKind) (hvalid : ∀ op ∈ ops, isValidOp op = true) :
    ∀ (d : Nat) (j : Nat) (st : WalkState) (fuel : Nat), j + d = 2 + ops.length → 2 ≤ j →
      2 * d + 1 ≤ fuel →
      walkFrom (mkChainModule ops) fuel (j - 1) j st =
        Except.ok ⟨(List.range' j d).reverse ++ st.toTagHost,
          ⟨1 + ops.length, ⟨2 + ops.length, []⟩, 0⟩ :: st.copyRequests, st.dusToRewrite⟩ := by
  intro d
  induction d with
  | zero =>
      intro j st fuel hj h2 hfuel
      have hjv : j = 2 + ops.length := by omega
      subst hjv
      obtain ⟨f, rfl⟩ : ∃ f, fuel = f + 1 := ⟨fuel - 1, by omega⟩
      simp only [walkFrom]
      have hmem : (⟨2 + ops.length, OpKind.customCall "MoveToDevice",
          [1 + ops.length], [], 0⟩ : Node) ∈ (mkChainModule ops).nodes := by
        simp [mkChainModule]
      have hfind := find?_eq_of_wf (mkChainModule_wf ops) hmem
      rw [hfind]
      dsimp only
      have hmtdt : isMoveToDevice (⟨2 + ops.length, OpKind.customCall "MoveToDevice",
          [1 + ops.length], [], 0⟩ : Node) = true := rfl
      rw [if_pos hmtdt]
      have h21 : 2 + ops.length - 1 = 1 + ops.length := by omega
      simp [addCopyRequest, h21]
  | succ d ih =>
      intro j st fuel hj h2 hfuel
      obtain ⟨f, rfl⟩ : ∃ f, fuel = f + 1 := ⟨fuel - 1, by omega⟩
      simp only [walkFrom]
      obtain ⟨opj, hopj, hmemj⟩ := chainNodesMS_mem_intro ops 0 2 j (by omega) (by omega)
      have hmemM : (⟨j, opj, [j - 1], [], 0⟩ : Node) ∈ (mkChainModule ops).nodes := by
        simp only [mkChainModule]
        exact List.mem_cons_of_mem _ (List.mem_cons_of_mem _ (List.mem_append_left _ hmemj))
      have hfind := find?_eq_of_wf (mkChainModule_wf ops) hmemM
      rw [hfind]
      dsimp only
      have hvj := hvalid opj hopj
      have hmtd : isMoveToDevice (⟨j, opj, [j - 1], [], 0⟩ : Node) = false := by
        simp only [isMoveToDevice]
        exact isValidOp_ne_customCall hvj _
      rw [if_neg (by simp [hmtd])]
      have hdus : isDusSpecial (j - 1) (⟨j, opj, [j - 1], [], 0⟩ : Node) = false := by
        simp [isDusSpecial]
      rw [if_neg (by simp [hdus])]
      have hvalidn : isValidDuringPureMemoryOffload (⟨j, opj, [j - 1], [], 0⟩ : Node) = true := hvj
      rw [if_pos hvalidn]
      have hcons : ∃ w : Node, consumersOf (mkChainModule ops) j = [w] ∧ w.id = j + 1 := by
        by_cases hd : d = 0
        · subst hd
          have hjl : j = 1 + ops.length := by omega
          subst hjl
          refine ⟨_, consumersOf_mkChain_last ops, ?_⟩
          show 2 + ops.length = 1 + ops.length + 1
          omega
        · obtain ⟨op, _, heq⟩ := consumersOf_mkChain_mid ops j (by omega) (by omega)
          exact ⟨_, heq, rfl⟩
      obtain ⟨w, hw, hwid⟩ := hcons
      rw [hw]
      obtain ⟨f', rfl⟩ : ∃ f', f = f' + 1 := ⟨f - 1, by omega⟩
      simp only [walkList]
      rw [hwid]
      have hih := ih (j + 1) (addTag st j) f' (by omega) (by omega) (by omega)
      have hj1 : j + 1 - 1 = j := by omega
      rw [hj1] at hih
      rw [hih]
      dsimp only
      simp [addTag, List.range'_succ, List.append_assoc]

theorem chainNodesMS_length :
    ∀ (l : List OpKind) (ms : Int) (i : Nat), (chainNodesMS ms i l).length = l.length := by
  intro l
  induction l with
  | nil => intro ms i; simp [chainNodesMS]
  | cons op rest ih => intro ms i; simp [chainNodesMS, ih]

theorem map_id_of_mem {α : Type} (l : List α) (f : α → α) (h : ∀ x ∈ l, f x = x) :
    l.map f = l := by
  induction l with
  | nil => simp
  | cons a l ih =>
      simp only [List.map_cons]
      rw [h a (by simp), ih (fun x hx => h x (by simp [hx]))]

theorem foldl_maxid_chain :
    ∀ (l : List OpKind) (ms : Int) (i a : Nat), a < i →
      List.foldl (fun acc n => max acc n.id) a (chainNodesMS ms i l) =
        if l.length = 0 then a else i + l.length - 1 := by
  intro l
  induction l with
  | nil => intro ms i a _; simp [chainNodesMS]
  | cons op rest ih =>
      intro ms i a ha
      simp only [chainNodesMS, List.foldl_cons]
      have hmax : max a i = i := by omega
      simp only [hmax]
      rw [ih ms (i + 1) i (by omega)]
      simp only [List.length_cons]
      by_cases hr : rest.length = 0
      · rw [if_pos hr, if_neg (by omega)]
        omega
      · rw [if_neg hr, if_neg (by omega)]
        omega

theorem resolveRef_of_none {ns : List Node} {o : Nat} (h : findMarker? ns o = none) :
    ∀ fuel, resolveRef ns fuel o = o := by
  intro fuel
  cases fuel with
  | zero => rfl
  | succ fuel => simp [resolveRef, h]

theorem taggedChainModule_wf (c : Int) (ops : List OpKind) :
    (taggedChainModule c ops).wf = true := by
  simp only [taggedChainModule, HloModule.wf, wfAux, Bool.and_eq_true]
  refine ⟨⟨by simp, by simp⟩, ⟨by simp, by simp⟩, ?_⟩
  have heq : 1 + ops.length = 2 + ops.length - 1 := by omega
  rw [heq]
  apply wfAux_chain_mtd "MoveToDevice" ops c 2 [1, 0]
  · intro x
    simp
    omega
  · omega

theorem chain_map_tag (c : Int) (k : Nat) :
    ∀ (l : List OpKind) (i : Nat), 2 ≤ i → i + l.length ≤ 2 + k →
      (chainNodesMS 0 i l).map
        (fun n => if (List.range' 2 k).reverse.contains n.id
          then { n with memSpace := c } else n) = chainNodesMS c i l := by
  intro l
  induction l with
  | nil => intro i _ _; simp [chainNodesMS]
  | cons op rest ih =>
      intro i h2 hk
      simp only [chainNodesMS, List.map_cons]
      have hcont : ((List.range' 2 k).reverse.contains i) = true := by
        simp [List.mem_range']
        exact ⟨i - 2, by simp at hk; omega, by omega⟩
      rw [hcont]
      simp only [if_true]
      rw [ih (i + 1) (by omega) (by simp at hk ⊢; omega)]

theorem applyTags_mkChain (c : Int) (ops : List OpKind) :
    applyTags c ((List.range' 2 ops.length).reverse) (mkChainModule ops) =
      taggedChainModule c ops := by
  simp only [applyTags, mkChainModule, taggedChainModule, List.map_cons, List.map_append,
    List.map_cons, List.map_nil]
  have h0 : ((List.range' 2 ops.length).reverse.contains 0) = false := by
    simp [List.mem_range']
    intro x hx
    omega
  have h1 : ((List.range' 2 ops.length).reverse.contains 1) = false := by
    simp [List.mem_range']
    intro x hx
    omega
  have hmtd : ((List.range' 2 ops.length).reverse.contains (2 + ops.length)) = false := by
    simp [List.mem_range']
  rw [h0, h1, hmtd]
  simp only [Bool.false_eq_true, if_false]
  rw [chain_map_tag c ops.length ops 2 (by omega) (by omega)]

theorem maxIdOf_taggedChain (c : Int) (ops : List OpKind) :
    maxIdOf (taggedChainModule c ops) = 2 + ops.length := by
  simp only [maxIdOf, taggedChainModule, List.foldl_cons, List.foldl_append]
  have hstep : (max (max 0 0) 1 : Nat) = 1 := by omega
  rw [hstep, foldl_maxid_chain ops c 2 1 (by omega)]
  by_cases hl : ops.length = 0
  · rw [if_pos hl]
    simp only [List.foldl_cons, List.foldl_nil]
    omega
  · rw [if_neg hl]
    simp only [List.foldl_cons, List.foldl_nil]
    omega

theorem chainNodesMS_map_id_of_high (f : Node → Node) (ms : Int) (i : Nat)
    (l : List OpKind) (hf : ∀ n : Node, n ∈ chainNodesMS ms i l → f n = n) :
    (chainNodesMS ms i l).map f = chainNodesMS ms i l :=
  map_id_of_mem _ f hf

theorem insertCopy_mtd (c : Int) (ops : List OpKind) (hlen : 1 ≤ ops.length) :
    insertCopyBetween (taggedChainModule c ops)
      ⟨1 + ops.length, ⟨2 + ops.length, []⟩, 0⟩ =
      ⟨⟨0, OpKind.parameter, [], [], 0⟩ ::
       ⟨1, OpKind.customCall "MoveToHost", [0], [], 0⟩ ::
       (chainNodesMS c 2 ops ++
         [⟨2 + ops.length, OpKind.customCall "MoveToDevice", [3 + ops.length], [], 0⟩,
          ⟨3 + ops.length, OpKind.copy, [1 + ops.length], [], 0⟩])⟩ := by
  obtain ⟨op', hop', hmem⟩ := chainNodesMS_mem_intro ops c 2 (1 + ops.length)
    (by omega) (by omega)
  have hmemM : (⟨1 + ops.length, op', [1 + ops.length - 1], [], c⟩ : Node) ∈
      (taggedChainModule c ops).nodes := by
    simp only [taggedChainModule]
    exact List.mem_cons_of_mem _ (List.mem_cons_of_mem _ (List.mem_append_left _ hmem))
  have hfind : (taggedChainModule c ops).find? (1 + ops.length) =
      some ⟨1 + ops.length, op', [1 + ops.length - 1], [], c⟩ :=
    find?_eq_of_wf (taggedChainModule_wf c ops) hmemM
  simp only [insertCopyBetween]
  rw [hfind]
  dsimp only
  simp only [freshIdOf, maxIdOf_taggedChain]
  simp only [rewireOperand, taggedChainModule, List.map_cons, List.map_append, List.map_nil]
  have hp0 : ((0 : Nat) == 2 + ops.length) = false := by simp; omega
  have hmth : ((1 : Nat) == 2 + ops.length) = false := by simp; omega
  have hmtdid : ((2 + ops.length : Nat) == 2 + ops.length) = true := by simp
  rw [hp0, hmth, hmtdid]
  simp only [Bool.false_eq_true, if_false, if_true]
  have hchain : (chainNodesMS c 2 ops).map
      (fun n => if n.id == 2 + ops.length then
        { n with operands := n.operands.map (fun o => if o == 1 + ops.length then 2 + ops.length + 1 else o) }
        else n) = chainNodesMS c 2 ops := by
    apply chainNodesMS_map_id_of_high
    intro n hn
    obtain ⟨_, _, _, _, _, hid2⟩ := chainNodesMS_mem ops c 2 n hn
    have : (n.id == 2 + ops.length) = false := by
      simp
      omega
    rw [this]
    simp
  rw [hchain]
  have hrw : [1 + ops.length].map
      (fun o => if o == 1 + ops.length then 2 + ops.length + 1 else o) =
      [2 + ops.length + 1] := by
    simp
  have h31 : 2 + ops.length + 1 = 3 + ops.length := by omega
  simp only [List.map_cons, List.map_nil, hrw, h31]
  simp

theorem insertCopy_start (c : Int) (ops : List OpKind) (hlen : 1 ≤ ops.length) :
    insertCopyBetween
      ⟨⟨0, OpKind.parameter, [], [], 0⟩ ::
       ⟨1, OpKind.customCall "MoveToHost", [0], [], 0⟩ ::
       (chainNodesMS c 2 ops ++
         [⟨2 + ops.length, OpKind.customCall "MoveToDevice", [3 + ops.length], [], 0⟩,
          ⟨3 + ops.length, OpKind.copy, [1 + ops.length], [], 0⟩])⟩
      ⟨0, ⟨1, []⟩, c⟩ = mutatedChainModule c ops := by
  simp only [insertCopyBetween]
  have hfind : (HloModule.mk (⟨0, OpKind.parameter, [], [], 0⟩ ::
       ⟨1, OpKind.customCall "MoveToHost", [0], [], 0⟩ ::
       (chainNodesMS c 2 ops ++
         [⟨2 + ops.length, OpKind.customCall "MoveToDevice", [3 + ops.length], [], 0⟩,
          ⟨3 + ops.length, OpKind.copy, [1 + ops.length], [], 0⟩]))).find? 0 =
      some ⟨0, OpKind.parameter, [], [], 0⟩ := rfl
  rw [hfind]
  dsimp only
  have hmax : maxIdOf (HloModule.mk (⟨0, OpKind.parameter, [], [], 0⟩ ::
       ⟨1, OpKind.customCall "MoveToHost", [0], [], 0⟩ ::
       (chainNodesMS c 2 ops ++
         [⟨2 + ops.length, OpKind.customCall "MoveToDevice", [3 + ops.length], [], 0⟩,
          ⟨3 + ops.length, OpKind.copy, [1 + ops.length], [], 0⟩]))) = 3 + ops.length := by
    simp only [maxIdOf, List.foldl_cons, List.foldl_append]
    have hstep : (max (max 0 0) 1 : Nat) = 1 := by omega
    rw [hstep, foldl_maxid_chain ops c 2 1 (by omega)]
    rw [if_neg (by omega)]
    simp only [List.foldl_cons, List.foldl_nil]
    omega
  simp only [freshIdOf, hmax]
  simp only [rewireOperand, List.map_cons, List.map_append, List.map_nil]
  have hp0 : ((0 : Nat) == 1) = false := by simp
  have hmth : ((1 : Nat) == 1) = true := by simp
  have hmtdid : ((2 + ops.length : Nat) == 1) = false := by simp; omega
  have hcpy1 : ((3 + ops.length : Nat) == 1) = false := by simp; omega
  rw [hp0, hmth, hmtdid, hcpy1]
  simp only [Bool.false_eq_true, if_false, if_true]
  have hchain : (chainNodesMS c 2 ops).map
      (fun n => if n.id == 1 then
        { n with operands := n.operands.map (fun o => if o == 0 then 3 + ops.length + 1 else o) }
        else n) = chainNodesMS c 2 ops := by
    apply chainNodesMS_map_id_of_high
    intro n hn
    obtain ⟨_, _, _, _, hid1, _⟩ := chainNodesMS_mem ops c 2 n hn
    have : (n.id == 1) = false := by
      simp
      omega
    rw [this]
    simp
  rw [hchain]
  have h41 : 3 + ops.length + 1 = 4 + ops.length := by omega
  simp only [List.map_cons, List.map_nil, h41]
  simp [mutatedChainModule]

theorem isMarker_false_of_valid {n : Node} (h : isValidOp n.op = true) :
    isMarker n = false := by
  simp only [isMarker, isMoveToHost, isMoveToDevice, Bool.or_eq_false_iff]
  exact ⟨isValidOp_ne_customCall h _, isValidOp_ne_customCall h _⟩

theorem chainNodesMS_marker_false {l : List OpKind} (hvalid : ∀ op ∈ l, isValidOp op = true)
    (ms : Int) (i : Nat) : ∀ n ∈ chainNodesMS ms i l, isMarker n = false := by
  intro n hn
  obtain ⟨hop, _, _, _, _, _⟩ := chainNodesMS_mem l ms i n hn
  exact isMarker_false_of_valid (hvalid _ hop)

theorem moveToHostsOf_mkChain (ops : List OpKind)
    (hvalid : ∀ op ∈ ops, isValidOp op = true) :
    moveToHostsOf (mkChainModule ops) =
      [⟨1, OpKind.customCall "MoveToHost", [0], [], 0⟩] := by
  simp only [moveToHostsOf, mkChainModule, List.filter_cons, List.filter_append]
  have hp0 : isMoveToHost (⟨0, OpKind.parameter, [], [], 0⟩ : Node) = false := rfl
  have hmth : isMoveToHost
      (⟨1, OpKind.customCall "MoveToHost", [0], [], 0⟩ : Node) = true := rfl
  have hmtd : isMoveToHost (⟨2 + ops.length, OpKind.customCall "MoveToDevice",
      [1 + ops.length], [], 0⟩ : Node) = false := by
    simp [isMoveToHost, kMoveToHostTarget]
  have hchain : (chainNodesMS 0 2 ops).filter isMoveToHost = [] := by
    rw [List.filter_eq_nil]
    intro n hn
    have hmk := chainNodesMS_marker_false hvalid 0 2 n hn
    simp only [isMarker, Bool.or_eq_false_iff] at hmk
    simp [hmk.1]
  rw [hp0, hmth, hchain]
  simp only [List.filter_cons, hmtd]
  simp

theorem hostParamsOf_mkChain (c : Int) (ops : List OpKind) (hc : c ≠ 0) :
    hostParamsOf c (mkChainModule ops) = [] := by
  simp only [hostParamsOf]
  rw [List.filter_eq_nil]
  intro n hn
  have hms0 : n.memSpace = 0 → ¬(n.op == OpKind.parameter && n.memSpace == c) = true := by
    intro hms
    simp [hms]
    intro _
    omega
  simp only [mkChainModule, List.mem_cons, List.mem_append, List.mem_singleton] at hn
  rcases hn with rfl | rfl | hn | rfl | h
  · exact hms0 rfl
  · exact hms0 rfl
  · obtain ⟨_, _, hms, _, _, _⟩ := chainNodesMS_mem ops 0 2 n hn
    exact hms0 hms
  · exact hms0 rfl
  · exact absurd h (List.not_mem_nil n)

theorem handleMoveToHost_mkChain (c : Int) (ops : List OpKind) (hlen : 1 ≤ ops.length)
    (hvalid : ∀ op ∈ ops, isValidOp op = true) :
    handleMoveToHost c (mkChainModule ops)
      ⟨1, OpKind.customCall "MoveToHost", [0], [], 0⟩ WalkState.empty =
      Except.ok ⟨(List.range' 2 ops.length).reverse,
        [⟨0, ⟨1, []⟩, c⟩, ⟨1 + ops.length, ⟨2 + ops.length, []⟩, 0⟩], []⟩ := by
  have hnlen : (mkChainModule ops).nodes.length = 3 + ops.length := by
    simp [mkChainModule, chainNodesMS_length]
    omega
  have hring : (3 + ops.length + 2) * (3 + ops.length + 2) =
      ops.length * ops.length + 10 * ops.length + 25 := by ring
  have hfuel : ∃ f, walkFuel (mkChainModule ops) = f + 1 ∧ 2 * ops.length + 1 ≤ f := by
    refine ⟨walkFuel (mkChainModule ops) - 1, ?_, ?_⟩ <;>
      simp only [walkFuel, hnlen, hring] <;> omega
  obtain ⟨f, hf, hfb⟩ := hfuel
  obtain ⟨op, hop, hcons⟩ := consumersOf_mkChain_mid ops 1 (by omega) (by omega)
  have hwc := walk_chain ops hvalid ops.length 2 WalkState.empty f (by omega) (by omega)
    (by omega)
  rw [show (2 : Nat) - 1 = 1 from rfl] at hwc
  have hwl : walkList (mkChainModule ops) (walkFuel (mkChainModule ops)) 1
      (consumersOf (mkChainModule ops) 1) WalkState.empty =
      Except.ok ⟨(List.range' 2 ops.length).reverse,
        [⟨1 + ops.length, ⟨2 + ops.length, []⟩, 0⟩], []⟩ := by
    rw [hcons, hf]
    simp only [walkList]
    rw [hwc]
    simp [WalkState.empty, walkList]
  simp only [handleMoveToHost]
  rw [hwl]
  simp [addCopyRequest, WalkState.empty]

theorem findMarker_mutatedChain_none (c : Int) (ops : List OpKind)
    (hvalid : ∀ op ∈ ops, isValidOp op = true)
    (o : Nat) (ho1 : o ≠ 1) (ho2 : o ≠ 2 + ops.length) :
    findMarker? (mutatedChainModule c ops).nodes o = none := by
  simp only [findMarker?]
  rw [List.find?_eq_none]
  intro n hn
  simp only [mutatedChainModule, List.mem_cons, List.mem_append] at hn
  rcases hn with rfl | rfl | hn | rfl | rfl | rfl | h
  · simp [isMarker, isMoveToHost, isMoveToDevice, kMoveToHostTarget, kMoveToDeviceTarget]
  · simp
    intro h
    omega
  · rw [chainNodesMS_marker_false hvalid c 2 n hn]
    simp
  · simp
    intro h
    omega
  · simp [isMarker, isMoveToHost, isMoveToDevice, kMoveToHostTarget, kMoveToDeviceTarget]
  · simp [isMarker, isMoveToHost, isMoveToDevice, kMoveToHostTarget, kMoveToDeviceTarget]
  · exact absurd h (List.not_mem_nil n)

theorem stripMarkers_mutatedChain (c : Int) (op0 : OpKind) (rest : List OpKind)
    (hv0 : isValidOp op0 = true) (hvr : ∀ op ∈ rest, isValidOp op = true) :
    stripMarkers (mutatedChainModule c (op0 :: rest)) = strippedChainModule c op0 rest := by
  have hvalid : ∀ op ∈ op0 :: rest, isValidOp op = true := by
    intro op hop
    rcases List.mem_cons.mp hop with rfl | h
    · exact hv0
    · exact hvr _ h
  have hnone : ∀ (o : Nat), o ≠ 1 → o ≠ 3 + rest.length → ∀ fuel,
      resolveRef (mutatedChainModule c (op0 :: rest)).nodes fuel o = o := by
    intro o h1 h2 fuel
    refine resolveRef_of_none (findMarker_mutatedChain_none c (op0 :: rest) hvalid o h1 ?_) fuel
    simp only [List.length_cons]
    omega
  have hL : (mutatedChainModule c (op0 :: rest)).nodes.length = 6 + rest.length := by
    simp [mutatedChainModule, chainNodesMS_length]
    omega
  have hres1 : resolveRef (mutatedChainModule c (op0 :: rest)).nodes
      (mutatedChainModule c (op0 :: rest)).nodes.length 1 = 4 + (op0 :: rest).length := by
    rw [hL, show 6 + rest.length = (5 + rest.length) + 1 from by omega]
    simp only [resolveRef]
    have hfind : findMarker? (mutatedChainModule c (op0 :: rest)).nodes 1 =
        some ⟨1, OpKind.customCall "MoveToHost", [4 + (op0 :: rest).length], [], 0⟩ := rfl
    rw [hfind]
    simp only [List.headD]
    exact hnone _ (by simp; omega) (by simp; omega) _
  have hfilter : (mutatedChainModule c (op0 :: rest)).nodes.filter (fun n => !(isMarker n)) =
      ⟨0, OpKind.parameter, [], [], 0⟩ ::
      ⟨2, op0, [1], [], c⟩ ::
      (chainNodesMS c 3 rest ++
        [⟨3 + (op0 :: rest).length, OpKind.copy, [1 + (op0 :: rest).length], [], 0⟩,
         ⟨4 + (op0 :: rest).length, OpKind.copy, [0], [], c⟩]) := by
    have h1 : isMarker (⟨0, OpKind.parameter, [], [], 0⟩ : Node) = false := rfl
    have h2 : isMarker (⟨1, OpKind.customCall "MoveToHost",
        [4 + (op0 :: rest).length], [], 0⟩ : Node) = true := rfl
    have h3 : isMarker (⟨2, op0, [1], [], c⟩ : Node) = false := isMarker_false_of_valid hv0
    have h4 : isMarker (⟨2 + (op0 :: rest).length, OpKind.customCall "MoveToDevice",
        [3 + (op0 :: rest).length], [], 0⟩ : Node) = true := by
      simp [isMarker, isMoveToDevice, kMoveToDeviceTarget]
    have h5 : isMarker (⟨3 + (op0 :: rest).length, OpKind.copy,
        [1 + (op0 :: rest).length], [], 0⟩ : Node) = false := rfl
    have h6 : isMarker (⟨4 + (op0 :: rest).length, OpKind.copy, [0], [], c⟩ : Node)
        = false := rfl
    have hchainf : (chainNodesMS c 3 rest).filter (fun n => !(isMarker n)) =
        chainNodesMS c 3 rest := by
      rw [List.filter_eq_self]
      intro n hn
      rw [chainNodesMS_marker_false hvr c 3 n hn]
      rfl
    simp only [mutatedChainModule, chainNodesMS, List.cons_append, List.filter_cons,
      List.filter_append, show (2 : Nat) - 1 = 1 from rfl, show (2 : Nat) + 1 = 3 from rfl,
      h1, h2, h3, h4, h5, h6, hchainf, Bool.not_true, Bool.not_false,
      Bool.false_eq_true, ite_false, ite_true, List.filter_nil]
  have hchainmap : (chainNodesMS c 3 rest).map (fun n => { n with operands := n.operands.map (resolveRef (mutatedChainModule c (op0 :: rest)).nodes (mutatedChainModule c (op0 :: rest)).nodes.length) }) = chainNodesMS c 3 rest := by
    apply map_id_of_mem
    intro n hn
    obtain ⟨_, _, _, hops, hlo, hhi⟩ := chainNodesMS_mem rest c 3 n hn
    rw [hops]
    simp only [List.map_cons, List.map_nil]
    rw [hnone (n.id - 1) (by omega) (by omega) _]
    rw [← hops]
  simp only [stripMarkers]
  rw [hfilter]
  simp only [List.map_cons, List.map_append, List.map_nil, hchainmap]
  rw [hres1]
  have hc1 : resolveRef (mutatedChainModule c (op0 :: rest)).nodes
      (mutatedChainModule c (op0 :: rest)).nodes.length (1 + (op0 :: rest).length) =
      2 + rest.length := by
    rw [show 1 + (op0 :: rest).length = 2 + rest.length from by simp; omega]
    exact hnone _ (by omega) (by omega) _
  have hc2 : resolveRef (mutatedChainModule c (op0 :: rest)).nodes
      (mutatedChainModule c (op0 :: rest)).nodes.length 0 = 0 :=
    hnone _ (by omega) (by omega) _
  rw [hc1, hc2]
  simp only [strippedChainModule, List.length_cons,
    show 3 + (rest.length + 1) = 4 + rest.length from by omega,
    show 4 + (rest.length + 1) = 5 + rest.length from by omega]

theorem applyCopies_chain (c : Int) (ops : List OpKind) (hlen : 1 ≤ ops.length) :
    (applyCopies [⟨1 + ops.length, ⟨2 + ops.length, []⟩, 0⟩, ⟨0, ⟨1, []⟩, c⟩]
      (taggedChainModule c ops) []).1 = mutatedChainModule c ops := by
  have hm1 : iasiMem ⟨2 + ops.length, []⟩ [] = false := rfl
  have hm2 : iasiMem (⟨1, []⟩ : InstructionAndShapeIndex) [⟨2 + ops.length, []⟩] = false := by
    simp [iasiMem, iasiEq]
    omega
  simp only [applyCopies, hm1, hm2, Bool.false_eq_true, ite_false]
  rw [insertCopy_mtd c ops hlen, insertCopy_start c ops hlen]

theorem runPass_chainFam (c : Int) (op0 : OpKind) (rest : List OpKind) (hc : c ≠ 0)
    (hv0 : isValidOp op0 = true) (hvr : ∀ op ∈ rest, isValidOp op = true) :
    runPass c (mkChainModule (op0 :: rest)) =
      Except.ok (true, applySchedulingFix (strippedChainModule c op0 rest)) := by
  have hvalid : ∀ op ∈ op0 :: rest, isValidOp op = true := by
    intro op hop
    rcases List.mem_cons.mp hop with rfl | h
    · exact hv0
    · exact hvr _ h
  have hlen : 1 ≤ (op0 :: rest).length := by simp
  have hany : (mkChainModule (op0 :: rest)).nodes.any isMarker = true := by
    refine List.any_eq_true.mpr ⟨⟨1, OpKind.customCall "MoveToHost", [0], [], 0⟩, ?_, rfl⟩
    simp [mkChainModule]
  have hhp := hostParamsOf_mkChain c (op0 :: rest) hc
  have hmths := moveToHostsOf_mkChain (op0 :: rest) hvalid
  simp only [runPass, hhp, hmths]
  rw [if_neg (by simp [hany])]
  simp only [foldHandle]
  rw [handleMoveToHost_mkChain c (op0 :: rest) hlen hvalid]
  dsimp only
  rw [show ([⟨0, ⟨1, []⟩, c⟩, ⟨1 + (op0 :: rest).length, ⟨2 + (op0 :: rest).length, []⟩, 0⟩] :
      List CopyRequest).reverse =
    [⟨1 + (op0 :: rest).length, ⟨2 + (op0 :: rest).length, []⟩, 0⟩, ⟨0, ⟨1, []⟩, c⟩] from rfl]
  rw [applyTags_mkChain c (op0 :: rest)]
  rw [applyCopies_chain c (op0 :: rest) hlen]
  rw [show ([] : List Nat).reverse = [] from rfl]
  simp only [applyDusRewrites]
  rw [stripMarkers_mutatedChain c op0 rest hv0 hvr]

theorem applySchedulingFix_perm (x : HloModule) :
    x.nodes.Perm (applySchedulingFix x).nodes := by
  simpa only [applySchedulingFix] using
    topoLoop_perm (x.nodes.map (fun n => n.id)) x.nodes.length x.nodes []

theorem chainFam_result (c : Int) (op0 : OpKind) (rest : List OpKind) (hc : c ≠ 0)
    (hv0 : isValidOp op0 = true) (hvr : ∀ op ∈ rest, isValidOp op = true) :
    ∃ m' : HloModule,
      runPass c (mkChainModule (op0 :: rest)) = Except.ok (true, m') ∧
      (∀ n ∈ m'.nodes, isMarker n = false) ∧
      (∀ j, 2 ≤ j → j ≤ 1 + (op0 :: rest).length →
        ∃ n ∈ m'.nodes, n.id = j ∧ n.memSpace = c) ∧
      m'.nodes.countP (fun n => n.op == OpKind.copy && n.memSpace == (0 : Int) &&
        n.operands == [1 + (op0 :: rest).length]) = 1 := by
  have hperm := applySchedulingFix_perm (strippedChainModule c op0 rest)
  refine ⟨applySchedulingFix (strippedChainModule c op0 rest),
    runPass_chainFam c op0 rest hc hv0 hvr,
    runPass_ok_no_markers (runPass_chainFam c op0 rest hc hv0 hvr), ?_, ?_⟩
  · intro j h2 h1len
    simp only [List.length_cons] at h1len
    by_cases hj2 : j = 2
    · subst hj2
      refine ⟨⟨2, op0, [5 + rest.length], [], c⟩, ?_, rfl, rfl⟩
      refine hperm.mem_iff.mp ?_
      simp [strippedChainModule]
    · obtain ⟨op, hop, hmem⟩ := chainNodesMS_mem_intro rest c 3 j (by omega) (by omega)
      refine ⟨⟨j, op, [j - 1], [], c⟩, ?_, rfl, rfl⟩
      refine hperm.mem_iff.mp ?_
      simp only [strippedChainModule, List.mem_cons, List.mem_append]
      exact Or.inr (Or.inr (Or.inl hmem))
  · have hcnt : (strippedChainModule c op0 rest).nodes.countP
        (fun n => n.op == OpKind.copy && n.memSpace == (0 : Int) &&
          n.operands == [1 + (op0 :: rest).length]) = 1 := by
      have hb : 1 + (op0 :: rest).length = 2 + rest.length := by
        simp
        omega
      simp only [hb]
      have hchain0 : (chainNodesMS c 3 rest).countP
          (fun n => n.op == OpKind.copy && n.memSpace == (0 : Int) &&
            n.operands == [2 + rest.length]) = 0 := by
        rw [List.countP_eq_zero]
        intro n hn
        obtain ⟨_, _, hms, hops, hlo, hhi⟩ := chainNodesMS_mem rest c 3 n hn
        simp [hops, hms, hc]
      simp only [strippedChainModule, List.countP_cons, List.countP_nil,
        List.countP_append, hchain0]
      simp [hc]
    exact ((hperm.countP_eq _).symm).trans hcnt

end HostOffload

/-- C9: the scheduling fixer is idempotent — applying `ApplySchedulingFix` a
second time to a graph whose schedule has already been fixed once produces no
further change (indeed, it is idempotent on every module). -/
theorem C9_scheduling_fix_idempotent (m : HostOffload.HloModule) :
    HostOffload.applySchedulingFix (HostOffload.applySchedulingFix m) =
      HostOffload.applySchedulingFix m :=
  HostOffload.applySchedulingFix_idem m

/-- C2: on every graph on which `Run` returns successfully (whether
`changed` is true or false), the resulting graph contains no `MoveToHost`
and no `MoveToDevice` marker custom-call node. -/
theorem C2_run_success_no_markers (c : Int) (m : HostOffload.HloModule) (b : Bool)
    (m' : HostOffload.HloModule) (h : HostOffload.runPass c m = Except.ok (b, m'))
    (n : HostOffload.Node) (hn : n ∈ m'.nodes) : HostOffload.isMarker n = false :=
  HostOffload.runPass_ok_no_markers h n hn

/-- Witness for C2: running the pass on the concrete
parameter → `MoveToHost` → copy → `MoveToDevice` chain succeeds, and a node
of the resulting module is not a marker. -/
theorem C2_run_success_no_markers_witness :
    HostOffload.isMarker ⟨5, HostOffload.OpKind.copy, [0], [4], 5⟩ = false :=
  C2_run_success_no_markers 5 HostOffload.mChainExample true
    ⟨[⟨0, HostOffload.OpKind.parameter, [], [4], 0⟩,
      ⟨5, HostOffload.OpKind.copy, [0], [4], 5⟩,
      ⟨2, HostOffload.OpKind.copy, [5], [4], 5⟩,
      ⟨4, HostOffload.OpKind.copy, [2], [4], 0⟩]⟩
    rfl ⟨5, HostOffload.OpKind.copy, [0], [4], 5⟩ (by decide)

/-- C6: on every graph containing zero `MoveToHost`/`MoveToDevice` markers
and no entry parameter tagged with the host memory space color, `Run`
returns `changed = false` and leaves the graph structurally identical. -/
theorem C6_no_annotations_noop (c : Int) (m : HostOffload.HloModule)
    (h1 : m.nodes.any HostOffload.isMarker = false)
    (h2 : HostOffload.hostParamsOf c m = []) :
    HostOffload.runPass c m = Except.ok (false, m) :=
  HostOffload.runPass_noop c m h1 h2

/-- Witness for C6 on a concrete marker-free module. -/
theorem C6_no_annotations_noop_witness :
    HostOffload.runPass 5 HostOffload.mNoOpExample =
      Except.ok (false, HostOffload.mNoOpExample) :=
  C6_no_annotations_noop 5 HostOffload.mNoOpExample (by decide) (by decide)

/-- C7: `InstructionAndShapeIndex` equality holds exactly when the two values
refer to the identical instruction node and have equal shape indices (and
this coincides with structural equality of the key, so the type serves as a
visited-set key). -/
theorem C7_iasi_equality (a b : HostOffload.InstructionAndShapeIndex) :
    (HostOffload.iasiEq a b = true ↔
      a.instruction = b.instruction ∧ a.shape_index = b.shape_index) ∧
    (HostOffload.iasiEq a b = true ↔ a = b) :=
  ⟨HostOffload.iasiEq_iff a b, HostOffload.iasiEq_eq_iff a b⟩

/-- C10: hashing is consistent with equality — equal
`InstructionAndShapeIndex` values hash identically from every initial hash
state, because the hash combines exactly the instruction identity and the
shape index, the two components compared by equality. -/
theorem C10_hash_consistent_with_eq (h : Nat) (a b : HostOffload.InstructionAndShapeIndex)
    (heq : HostOffload.iasiEq a b = true) :
    HostOffload.AbslHashValue h a = HostOffload.AbslHashValue h b := by
  rcases (HostOffload.iasiEq_iff a b).mp heq with ⟨h1, h2⟩
  simp [HostOffload.AbslHashValue, HostOffload.InstructionAndShapeIndex.Hash, h1, h2]

/-- Witness for C10 at a concrete pair of equal keys. -/
theorem C10_hash_consistent_with_eq_witness :
    HostOffload.AbslHashValue 17 ⟨3, [1, 2]⟩ = HostOffload.AbslHashValue 17 ⟨3, [1, 2]⟩ :=
  C10_hash_consistent_with_eq 17 ⟨3, [1, 2]⟩ ⟨3, [1, 2]⟩ (by decide)
/-- C4: convergence de-duplication — for every boundary pair (keyed by node
identity and shape index), even when requests for it are collected several
times along reconverging walk paths, the mutation phase inserts at most one
copy node for that pair, and at most one buffer-allocation node per
slice-update; insertions are recorded in the per-pair "already inserted"
sets and skipped on repeat. -/
theorem C4_convergent_insertion_deduplicated (c : Int)
    (rs : List HostOffload.CopyRequest) (ds : List Nat)
    (m1 m2 : HostOffload.HloModule) (p : HostOffload.InstructionAndShapeIndex) (d : Nat) :
    ((HostOffload.applyCopies rs m1 []).2.1.countP
        (fun q => HostOffload.iasiEq q.1 p)) ≤ 1 ∧
    ((HostOffload.applyDusRewrites c ds m2 []).2.1.countP (fun q => q.1 == d)) ≤ 1 := by
  constructor
  · have h1 := HostOffload.applyCopies_count_le p rs m1 []
    simpa using h1
  · have h2 := HostOffload.applyDusRewrites_count_le c d ds m2 []
    simpa using h2

/-- C8: the pass-local bookkeeping sets are created fresh per invocation of
`Run` and discarded when it returns: the result of an invocation is
independent of whatever bookkeeping state the pass object carried before,
and coincides with the stateless pass on the module alone. -/
theorem C8_bookkeeping_fresh_per_invocation (c : Int)
    (s1 s2 : HostOffload.HostOffloaderState) (m : HostOffload.HloModule) :
    HostOffload.runStateful c s1 m = HostOffload.runStateful c s2 m ∧
    HostOffload.runStateful c s1 m = HostOffload.runPass c m :=
  ⟨rfl, rfl⟩
/-- C1: on every well-formed graph in which a walk starting from a
`MoveToHost` marker reaches a node that is not on the allow-list of
data-movement-safe operations before any `MoveToDevice` marker, `Run`
returns a validation error, and the error identifies an exact offending
node: one that is genuinely not allow-listed and is reached from an offload
start before any device boundary. -/
theorem C1_compute_on_offload_path_rejected (c : Int) (m : HostOffload.HloModule)
    (bad : Nat) (hwf : m.wf = true) (hr : HostOffload.MthStartReachesBad m bad) :
    ∃ bad', HostOffload.runPass c m =
        Except.error (HostOffload.PassError.computeOnOffloadPath bad') ∧
      HostOffload.StartReachesBad c m bad' := by
  obtain ⟨e, he⟩ := HostOffload.runPass_error_of_mth_reaches c hr
  obtain ⟨b, rfl⟩ := HostOffload.runPass_error_compute hwf he
  exact ⟨b, he, HostOffload.runPass_compute_reaches he⟩

/-- Witness for C1 on the concrete module with an `add` on the offload
path. -/
theorem C1_compute_on_offload_path_rejected_witness :
    ∃ bad', HostOffload.runPass 5 HostOffload.mBadExample =
        Except.error (HostOffload.PassError.computeOnOffloadPath bad') ∧
      HostOffload.StartReachesBad 5 HostOffload.mBadExample bad' :=
  C1_compute_on_offload_path_rejected 5 HostOffload.mBadExample 2 (by decide)
    ⟨⟨1, HostOffload.OpKind.customCall "MoveToHost", [0], [4], 0⟩, by decide, by decide,
     ⟨2, HostOffload.OpKind.add, [1, 1], [4], 0⟩, by decide,
     HostOffload.ReachesBad.here 1 2 ⟨2, HostOffload.OpKind.add, [1, 1], [4], 0⟩ rfl
       (by decide)⟩
/-- C5: on the slice-update offload idiom — an update operand originating
from a `MoveToHost` marker written by a `DynamicUpdateSlice` whose updated
buffer flows to a `MoveToDevice` marker — a successful `Run` rewrites the
slice-update to write directly into host memory and inserts exactly one
explicit host-memory buffer-allocation node sized to the slice-update's full
shape (the slice-update's destination operand targets it), instead of
inserting a device-to-host copy for that path: every copy in the result
emits into device memory. -/
theorem C5_dus_rewritten_to_host_buffer (c : Int) (hc : c ≠ 0) (sh1 sh2 : List Nat) :
    ∃ m', HostOffload.runPass c (HostOffload.mkDusModule sh1 sh2) =
        Except.ok (true, m') ∧
      (m'.nodes.countP (fun n => n.op == HostOffload.OpKind.allocateBuffer) = 1) ∧
      (∃ a ∈ m'.nodes, a.op = HostOffload.OpKind.allocateBuffer ∧ a.memSpace = c ∧
        a.shape = sh2 ∧
        ∃ d ∈ m'.nodes, d.op = HostOffload.OpKind.dynamicUpdateSlice ∧ d.memSpace = c ∧
          d.shape = sh2 ∧ d.operands.head? = some a.id) ∧
      (∀ n ∈ m'.nodes, n.op = HostOffload.OpKind.copy → n.memSpace = 0) := by
  refine ⟨HostOffload.mkDusResult c sh1 sh2, HostOffload.runPass_mkDus c hc sh1 sh2,
    rfl, ?_, ?_⟩
  · refine ⟨⟨7, HostOffload.OpKind.allocateBuffer, [], sh2, c⟩,
      by simp [HostOffload.mkDusResult], rfl, rfl, rfl,
      ⟨4, HostOffload.OpKind.dynamicUpdateSlice, [7, 0, 3], sh2, c⟩,
      by simp [HostOffload.mkDusResult], rfl, rfl, rfl, rfl⟩
  · intro n hn hop
    simp [HostOffload.mkDusResult] at hn
    rcases hn with rfl | rfl | rfl | rfl | rfl | rfl
    · exact absurd hop (by simp)
    · exact absurd hop (by simp)
    · exact absurd hop (by simp)
    · exact absurd hop (by simp)
    · exact absurd hop (by simp)
    · rfl

/-- Witness for C5 at concrete color and shapes. -/
theorem C5_dus_rewritten_to_host_buffer_witness :
    ∃ m', HostOffload.runPass 5 (HostOffload.mkDusModule [2] [8]) =
        Except.ok (true, m') ∧
      (m'.nodes.countP (fun n => n.op == HostOffload.OpKind.allocateBuffer) = 1) ∧
      (∃ a ∈ m'.nodes, a.op = HostOffload.OpKind.allocateBuffer ∧ a.memSpace = 5 ∧
        a.shape = [8] ∧
        ∃ d ∈ m'.nodes, d.op = HostOffload.OpKind.dynamicUpdateSlice ∧ d.memSpace = 5 ∧
          d.shape = [8] ∧ d.operands.head? = some a.id) ∧
      (∀ n ∈ m'.nodes, n.op = HostOffload.OpKind.copy → n.memSpace = 0) :=
  C5_dus_rewritten_to_host_buffer 5 (by decide) [2] [8]

/-- C3: on every graph consisting of one `MoveToHost` marker followed only by
a nonempty straight chain of allow-listed (data-movement-safe) nodes up to a
`MoveToDevice` marker, a run with a nonzero host memory color succeeds, and
afterwards both markers are removed, every intermediate chain node carries
the host memory-space tag (the pass's `kHostMemorySpaceColor`), and exactly
one new copy node back to device memory exists at the re-entry boundary,
consuming the last chain node. -/
theorem C3_chain_tagged_and_copied (c : Int) (op0 : HostOffload.OpKind)
    (rest : List HostOffload.OpKind) (hc : c ≠ 0)
    (hv0 : HostOffload.isValidOp op0 = true)
    (hvr : ∀ op ∈ rest, HostOffload.isValidOp op = true) :
    ∃ m' : HostOffload.HloModule,
      HostOffload.runPass c (HostOffload.mkChainModule (op0 :: rest)) =
        Except.ok (true, m') ∧
      (∀ n ∈ m'.nodes, HostOffload.isMarker n = false) ∧
      (∀ j, 2 ≤ j → j ≤ 1 + (op0 :: rest).length →
        ∃ n ∈ m'.nodes, n.id = j ∧ n.memSpace = c) ∧
      m'.nodes.countP (fun n => n.op == HostOffload.OpKind.copy &&
        n.memSpace == (0 : Int) &&
        n.operands == [1 + (op0 :: rest).length]) = 1 :=
  HostOffload.chainFam_result c op0 rest hc hv0 hvr

/-- Witness for C3 on the concrete one-element chain `MoveToHost` → copy →
`MoveToDevice`, with host color 5. -/
theorem C3_chain_tagged_and_copied_witness :
    ∃ m' : HostOffload.HloModule,
      HostOffload.runPass 5 (HostOffload.mkChainModule [HostOffload.OpKind.copy]) =
        Except.ok (true, m') ∧
      (∀ n ∈ m'.nodes, HostOffload.isMarker n = false) ∧
      (∀ j, 2 ≤ j → j ≤ 1 + ([HostOffload.OpKind.copy] : List HostOffload.OpKind).length →
        ∃ n ∈ m'.nodes, n.id = j ∧ n.memSpace = 5) ∧
      m'.nodes.countP (fun n => n.op == HostOffload.OpKind.copy &&
        n.memSpace == (0 : Int) &&
        n.operands == [1 + ([HostOffload.OpKind.copy] : List HostOffload.OpKind).length]) = 1 :=
  C3_chain_tagged_and_copied 5 HostOffload.OpKind.copy [] (by decide) (by decide) (by simp)
